import Mathlib

/-!
Verification development for the `shortcode-insert` tag-substitution engine.

The JavaScript source (index.js of the package) is shallowly embedded here:
JS strings become `List Char`, the regular expressions of the source are
specialised into executable matching functions with the exact
leftmost-match / alternation-order / lazy- and greedy-quantifier semantics
of the ECMAScript engine for those particular patterns, promises become
`Except`-valued results, and the stateful array passes of the tag resolver
become explicit index-recursive functions over persistent lists.
-/

namespace Shortcode

/-- JS strings are modelled as lists of characters. -/
abbrev Str := List Char

/-- Embed a Lean string literal as a JS string value. -/
def jstr (s : String) : Str := s.toList

/-- The JS `\s` character class, restricted to the ASCII/latin whitespace
characters that can occur in this development (the full class also contains
exotic Unicode space separators, which never appear in any input we treat). -/
def jsSpace (c : Char) : Bool :=
  c == ' ' || c == '\t' || c == '\n' || c == '\r' || c == '\x0b' || c == '\x0c'

/-- Characters NOT matched by the JS regex dot `.` (line terminators).
` `/` ` are omitted as they never occur in treated inputs. -/
def jsLineTerm (c : Char) : Bool := c == '\n' || c == '\r'

/-- Slice of a JS string: characters at indices `[a, b)` (for `a ≤ b`). -/
def strSub (s : Str) (a b : Nat) : Str := (s.drop a).take (b - a)

/-- `String.prototype.substring(a, b)`: clamps both arguments to the string
length and swaps them when `a > b`. -/
def jsSubstring (s : Str) (a b : Nat) : Str :=
  let a' := min a s.length
  let b' := min b s.length
  if a' ≤ b' then strSub s a' b' else strSub s b' a'

/-- Does the literal pattern `pat` occur in `s` starting at index `i`? -/
def occursAt (pat s : Str) (i : Nat) : Bool :=
  strSub s i (i + pat.length) == pat

/-- First index `j` with `i ≤ j ≤ s.length` at which `pat` occurs
(the JS `String.indexOf` search used by `replace`, and the candidate-start
scan of a regex search). -/
def findFrom (pat s : Str) (i : Nat) : Option Nat :=
  (List.range' i (s.length + 1 - i)).find? (fun j => occursAt pat s j)

/-- Length of the maximal run of characters satisfying `P` starting at `p`. -/
def runLen (P : Char → Bool) (s : Str) (p : Nat) : Nat :=
  ((s.drop p).takeWhile P).length

/-- Index of the first line terminator at or after `p` (or `s.length`).
The JS dot cannot advance past this position. -/
def firstLT (s : Str) (p : Nat) : Nat :=
  p + runLen (fun c => !jsLineTerm c) s p

/-- Index just after the whitespace run starting at `p` (for `\s*`). -/
def skipSpaces (s : Str) (p : Nat) : Nat := p + runLen jsSpace s p

/-- GetSubstitution of `String.prototype.replace` with a string pattern:
only `$$`, `$&`, a backquote dollar and a quote dollar are special
(numbered groups stay literal because a string pattern has no captures).
`before`/`matched`/`after` are the three parts of the subject string. -/
def expandDollar (matched before after : Str) : Str → Str
  | [] => []
  | '$' :: '$' :: rest => '$' :: expandDollar matched before after rest
  | '$' :: '&' :: rest => matched ++ expandDollar matched before after rest
  | '$' :: '`' :: rest => before ++ expandDollar matched before after rest
  | '$' :: '\'' :: rest => after ++ expandDollar matched before after rest
  | c :: rest => c :: expandDollar matched before after rest

/-- `txt.replace(pat, repl)` with string arguments: replace the first
occurrence of `pat` (dollar patterns in `repl` expanded), or return `txt`
unchanged when `pat` does not occur. -/
def jsReplace (txt pat repl : Str) : Str :=
  match findFrom pat txt 0 with
  | none => txt
  | some i =>
      txt.take i ++ expandDollar pat (txt.take i) (txt.drop (i + pat.length)) repl
        ++ txt.drop (i + pat.length)

/-- Decimal digit character (JS number-to-string for a digit value). -/
def digitChar (d : Nat) : Char :=
  match d with
  | 0 => '0' | 1 => '1' | 2 => '2' | 3 => '3' | 4 => '4'
  | 5 => '5' | 6 => '6' | 7 => '7' | 8 => '8' | _ => '9'

/-- Decimal digit value of a digit character (inverse of `digitChar`). -/
def digitVal (c : Char) : Nat :=
  match c with
  | '0' => 0 | '1' => 1 | '2' => 2 | '3' => 3 | '4' => 4
  | '5' => 5 | '6' => 6 | '7' => 7 | '8' => 8 | _ => 9

/-- Decimal digits of `n`, most significant first (fuel-structured). -/
def natChars (fuel n : Nat) : List Char :=
  match fuel with
  | 0 => []
  | fuel + 1 => if n < 10 then [digitChar n] else natChars fuel (n / 10) ++ [digitChar (n % 10)]

/-- JS coercion of a (small, integral) number to a property-key string:
its decimal representation.  Used for the positional attribute slots
(`attributes[count]` stores under the string key `String(count)`). -/
def natToStr (n : Nat) : Str := natChars (n + 1) n

/-- Decimal value of a digit string (left fold), inverse of `natToStr`. -/
def digitsVal (s : Str) : Nat := s.foldl (fun a c => a * 10 + digitVal c) 0

theorem digitsVal_append (xs : List Char) (c : Char) :
    digitsVal (xs ++ [c]) = digitsVal xs * 10 + digitVal c := by
  simp [digitsVal, List.foldl_append]

theorem digitVal_digitChar (d : Nat) (h : d < 10) : digitVal (digitChar d) = d := by
  interval_cases d <;> rfl

theorem digitsVal_natChars (fuel n : Nat) (h : n < fuel) : digitsVal (natChars fuel n) = n := by
  induction fuel generalizing n with
  | zero => omega
  | succ fuel ih =>
      unfold natChars
      by_cases h10 : n < 10
      · simp [h10, digitsVal, digitVal_digitChar n h10]
      · have hdiv : n / 10 < fuel := by
          have : n / 10 < n := Nat.div_lt_self (by omega) (by omega)
          omega
        simp only [h10, if_false]
        rw [digitsVal_append, ih _ hdiv, digitVal_digitChar _ (Nat.mod_lt _ (by omega))]
        omega

theorem digitsVal_natToStr (n : Nat) : digitsVal (natToStr n) = n :=
  digitsVal_natChars (n + 1) n (Nat.lt_succ_self n)

theorem natToStr_injective : Function.Injective natToStr := by
  intro m n h
  have := digitsVal_natToStr m
  rw [h, digitsVal_natToStr] at this
  omega

/-! ## Delimiter grammar (the `_createRegExpsObj` matchers)

`options = {start, end}` with defaults `[[` / `]]`.  Every character of the
configured delimiters is backslash-escaped by `_addSlashToEachCharacter`, so
the delimiters act as literal strings inside every pattern; the matchers
below are those patterns specialised to literal delimiters. -/

/-- The `{start, end}` options object / the delimiter pair baked into a
`ShortcodeParserFinder`.  (`end` is a Lean keyword, hence the field names.) -/
structure Delims where
  startD : Str
  endD : Str
deriving Repr, DecidableEq

/-- `defaultOptions = {start: '[[', end: ']]'}`. -/
def defaultOptions : Delims := ⟨jstr "[[", jstr "]]"⟩

/-- `Object.assign({}, defaultOptions, options)`: a missing field falls back
to the default, a present field (even an empty string) wins. -/
def mergeOptions (startOpt endOpt : Option Str) : Delims :=
  ⟨startOpt.getD defaultOptions.startD, endOpt.getD defaultOptions.endD⟩

/-- The tag-span pattern `{start}.*?{end}` tried at start position `s`:
`some e` gives the exclusive end of the match.  The lazy dot-run takes the
first occurrence of the end delimiter reachable without crossing a line
terminator (the dot does not match line terminators). -/
def tagMatchAt (d : Delims) (txt : Str) (s : Nat) : Option Nat :=
  if occursAt d.startD txt s then
    let base := s + d.startD.length
    let w := min (firstLT txt base) txt.length
    ((List.range' base (w + 1 - base)).find? (fun t => occursAt d.endD txt t)).map
      (fun t => t + d.endD.length)
  else none

/-- One `exec` of the global `tagMatch` regex from position `pos`: the
leftmost start position at or after `pos` where the tag-span pattern
matches, with the match end. -/
def tagFindMatch (d : Delims) (txt : Str) (pos : Nat) : Option (Nat × Nat) :=
  (List.range' pos (txt.length + 1 - pos)).findSome?
    (fun s => (tagMatchAt d txt s).map (fun e => (s, e)))

/-- The `while (result = finder.tagMatch.exec(txt))` loop of
`_extractTagStrings`: collect `(start, end)` spans, continuing each search
from `lastIndex` (= previous match end).  A zero-length match leaves
`lastIndex` unchanged exactly as in JS, so with both delimiters empty the
loop never terminates; `none` models running forever (fuel exhausted). -/
def scanLoop (d : Delims) (txt : Str) : Nat → Nat → Option (List (Nat × Nat))
  | 0, _ => none
  | fuel + 1, pos =>
      match tagFindMatch d txt pos with
      | none => some []
      | some (s, e) => (scanLoop d txt fuel e).map (fun rest => (s, e) :: rest)

/-- `_extractTagStrings`: all tag spans of `txt`.  The fuel `txt.length + 2`
is sufficient whenever at least one delimiter is nonempty (every match then
advances the scan position), so `none` occurs exactly when the JS loop
diverges. -/
def extractSpans (d : Delims) (txt : Str) : Option (List (Nat × Nat)) :=
  scanLoop d txt (txt.length + 2) 0

/-! ## Tag-head extractors -/

/-- The lazy name run of `getTagName` (`(.*?)(?:\s|{end})`) starting at
`p0`: grow the captured name until the next character is whitespace or the
end delimiter occurs (whitespace alternative tried first); fail at the end
of the string.  Any line terminator is whitespace, so the dot never blocks. -/
def tagNameFrom (d : Delims) (m : Str) (p0 : Nat) : Option Str :=
  go (m.length + 1 - p0) p0
where
  go : Nat → Nat → Option Str
    | 0, _ => none
    | fuel + 1, p =>
        if p < m.length then
          if jsSpace (m.getD p ' ') then some (strSub m p0 p)
          else if occursAt d.endD m p then some (strSub m p0 p)
          else go fuel (p + 1)
        else
          if occursAt d.endD m p then some (strSub m p0 p) else none

/-- `getTagName` = `{start}(?:\/|)(.*?)(?:\s|{end})`, non-global `exec`
capture 1 on a full match string: leftmost start position wins; at each
position the slash alternative is tried before the empty one. -/
def getTagName (d : Delims) (m : Str) : Option Str :=
  (List.range' 0 (m.length + 1)).findSome? (fun s =>
    if occursAt d.startD m s then
      let base := s + d.startD.length
      (if occursAt (jstr "/") m base then tagNameFrom d m (base + 1) else none).orElse
        (fun _ => tagNameFrom d m base)
    else none)

/-- `isEndTag` = `^{start}\/` (test): the string starts with the start
delimiter immediately followed by a slash. -/
def isEndTag (d : Delims) (m : Str) : Bool :=
  occursAt d.startD m 0 && occursAt (jstr "/") m d.startD.length

/-- `getStartTagContent` = `{start}(.*){end}`, non-global `exec` capture 1:
leftmost start position; the greedy dot-run takes the farthest position
(not crossing a line terminator) at which the end delimiter still occurs. -/
def getStartTagContent (d : Delims) (m : Str) : Option Str :=
  (List.range' 0 (m.length + 1)).findSome? (fun s =>
    if occursAt d.startD m s then
      let base := s + d.startD.length
      let w := min (firstLT m base) m.length
      ((List.range' base (w + 1 - base)).reverse.find?
          (fun t => occursAt d.endD m t)).map (fun t => strSub m base t)
    else none)

/-- The attribute-head pattern `{start}.*?\s(.*?){end}`, non-global `exec`
capture 1: leftmost start position `s`; the first lazy run stops at each
whitespace position `j` in turn (never crossing a line terminator — but a
line terminator is itself whitespace, so candidates stop at the first one);
the second lazy run then takes the first end-delimiter occurrence after `j`
reachable without crossing a line terminator, else the next `j` is tried. -/
def getAttrText (d : Delims) (m : Str) : Option Str :=
  (List.range' 0 (m.length + 1)).findSome? (fun s =>
    if occursAt d.startD m s then
      let base := s + d.startD.length
      let wbound := min (firstLT m base) (m.length - 1)
      (List.range' base (wbound + 1 - base)).findSome? (fun j =>
        if j < m.length && jsSpace (m.getD j ' ') then
          let tb := min (firstLT m (j + 1)) m.length
          ((List.range' (j + 1) (tb + 1 - (j + 1))).find?
              (fun t => occursAt d.endD m t)).map (fun t => strSub m (j + 1) t)
        else none)
    else none)

/-! ## Attribute tokenizer

`xGetAttributes =
  (\S+)\s*=\s*(['"])(.*?)\2 | (\S+)\s*=\s*(\S+) | ([^'^"^\s]+)(?:\s|$) | (['"])(.*?)\7`
run globally over the attribute text.  Each alternative is specialised
below with the backtracking behaviour of the ECMAScript engine for that
alternative; the alternation tries them in order at each start position,
and the global scan takes the leftmost position with any match. -/

/-- One token produced by the attribute regex: which capture groups were
set.  `keyed` covers alternatives 1 and 2 (groups 1/3 or 4/5; a quoted
value may be empty), `bare` covers a nonempty group 6 or 8, and `skip` is
an empty quoted token `''`/`""` (group 8 empty, so in `_getAttribute`
neither branch of the `if` fires, yet `count` still advances). -/
inductive AttrTok where
  | keyed (k v : Str)
  | bare (t : Str)
  | skip
deriving Repr, DecidableEq

/-- Is `c` one of the two JS quote characters of the attribute grammar? -/
def isQuote (c : Char) : Bool := c == '\'' || c == '"'

/-- Alternative 1, `(\S+)\s*=\s*(['"])(.*?)\2`, at position `p`: the greedy
key run backtracks from the longest non-space run down; after the key,
`\s*=\s*` deterministically skips spaces and requires `=` then a quote; the
lazy value takes the first matching close quote not beyond a line
terminator.  Result: token and match end. -/
def attrAlt1 (s : Str) (p : Nat) : Option (AttrTok × Nat) :=
  (List.range (runLen (fun c => !jsSpace c) s p)).reverse.findSome? (fun i =>
    let k := i + 1
    let q1 := skipSpaces s (p + k)
    if q1 < s.length && s.getD q1 ' ' == '=' then
      let q2 := skipSpaces s (q1 + 1)
      if q2 < s.length && isQuote (s.getD q2 ' ') then
        let qc := s.getD q2 ' '
        let tb := min (firstLT s (q2 + 1)) (s.length - 1)
        ((List.range' (q2 + 1) (tb + 1 - (q2 + 1))).find?
            (fun t => s.getD t ' ' == qc)).map
          (fun t => (AttrTok.keyed (strSub s p (p + k)) (strSub s (q2 + 1) t), t + 1))
      else none
    else none)

/-- Alternative 2, `(\S+)\s*=\s*(\S+)`, at position `p`: greedy key with
backtracking, then `=` amid optional spaces, then a greedy nonempty
non-space value run. -/
def attrAlt2 (s : Str) (p : Nat) : Option (AttrTok × Nat) :=
  (List.range (runLen (fun c => !jsSpace c) s p)).reverse.findSome? (fun i =>
    let k := i + 1
    let q1 := skipSpaces s (p + k)
    if q1 < s.length && s.getD q1 ' ' == '=' then
      let q2 := skipSpaces s (q1 + 1)
      let v := runLen (fun c => !jsSpace c) s q2
      if v ≥ 1 then
        some (AttrTok.keyed (strSub s p (p + k)) (strSub s q2 (q2 + v)), q2 + v)
      else none
    else none)

/-- Alternative 3, `([^'^"^\s]+)(?:\s|$)`, at position `p`: a nonempty run
of characters other than quotes, caret and whitespace, followed by a
whitespace character (consumed) or the end of the string.  Shortening the
run cannot help (the follower would be a run character), so no backtracking. -/
def attrAlt3 (s : Str) (p : Nat) : Option (AttrTok × Nat) :=
  let m := runLen (fun c => !isQuote c && !(c == '^') && !jsSpace c) s p
  if m ≥ 1 then
    if s.length ≤ p + m then some (AttrTok.bare (strSub s p (p + m)), p + m)
    else if jsSpace (s.getD (p + m) ' ') then
      some (AttrTok.bare (strSub s p (p + m)), p + m + 1)
    else none
  else none

/-- Alternative 4, `(['"])(.*?)\7`, at position `p`: a quote, then the
lazily-shortest run (not crossing a line terminator) up to the same quote.
An empty quoted value gives the `skip` token (see `AttrTok`). -/
def attrAlt4 (s : Str) (p : Nat) : Option (AttrTok × Nat) :=
  if p < s.length && isQuote (s.getD p ' ') then
    let qc := s.getD p ' '
    let tb := min (firstLT s (p + 1)) (s.length - 1)
    ((List.range' (p + 1) (tb + 1 - (p + 1))).find? (fun t => s.getD t ' ' == qc)).map
      (fun t =>
        (if strSub s (p + 1) t = [] then AttrTok.skip else AttrTok.bare (strSub s (p + 1) t),
          t + 1))
  else none

/-- One `exec` of `xGetAttributes` from position `p`: leftmost start
position at which some alternative matches, alternatives in order. -/
def findAttrTok (s : Str) (p : Nat) : Option (AttrTok × Nat) :=
  (List.range' p (s.length - p)).findSome? (fun q =>
    (attrAlt1 s q).orElse (fun _ =>
      (attrAlt2 s q).orElse (fun _ =>
        (attrAlt3 s q).orElse (fun _ => attrAlt4 s q))))

/-- The `while (result = xGetAttributes.exec(results[1]))` scan: all tokens
in order.  Every alternative consumes at least one character, so the fuel
`s.length + 2` always suffices and `none` never actually occurs. -/
def attrTokensGo (s : Str) : Nat → Nat → Option (List AttrTok)
  | 0, _ => none
  | fuel + 1, p =>
      match findAttrTok s p with
      | none => some []
      | some (t, e) => (attrTokensGo s fuel e).map (fun rest => t :: rest)

/-- All attribute tokens of an attribute text. -/
def attrTokens (s : Str) : Option (List AttrTok) := attrTokensGo s (s.length + 2) 0

/-! ## Attribute object builder (`_getAttribute`) -/

/-- A JS value stored in the attributes object: a string, `undefined`
(from `result[3] || result[5]` when a quoted value is empty), or a plain
object (the positional slot of a keyed attribute). -/
inductive JSVal where
  | undef
  | str (s : Str)
  | obj (fields : List (Str × JSVal))

/-- The attributes object: property insertion order is kept; keys are
unique by construction of `setKey`. -/
abbrev Attrs := List (Str × JSVal)

/-- JS property assignment `a[k] = v`: overwrite in place when the key
exists (keeping its position), else append. -/
def setKey (a : Attrs) (k : Str) (v : JSVal) : Attrs :=
  if a.any (fun p => p.1 == k) then a.map (fun p => if p.1 == k then (k, v) else p)
  else a ++ [(k, v)]

/-- JS property read `a[k]`. -/
def lookupA (a : Attrs) (k : Str) : Option JSVal :=
  (a.find? (fun p => p.1 == k)).map Prod.snd

/-- `result[3] || result[5]` for a keyed token: an empty (quoted) value is
falsy, and group 5 is undefined, so the stored value is `undefined`. -/
def valOf (v : Str) : JSVal := if v = [] then JSVal.undef else JSVal.str v

/-- The body of the `while` loop of `_getAttribute`, one step per token
(`count` starts at 1 and advances for every token).  A keyed token performs
`attributes[count] = {}`, then `attributes[key] = value`, then
`attributes[count][key] = value`; when `key` is the decimal string of
`count`, the second write replaces the fresh object by the (primitive)
value and the third write then throws a `TypeError` in strict mode,
modelled by `Except.error`.  Otherwise the third write mutates the fresh
object, which is referenced only by the `count` slot. -/
def buildAttrsGo : List AttrTok → Nat → Attrs → Except Unit Attrs
  | [], _, a => .ok a
  | .keyed k v :: ts, count, a =>
      let pos := natToStr count
      if k == pos then .error ()
      else
        buildAttrsGo ts (count + 1)
          (setKey (setKey (setKey a pos (.obj [])) k (valOf v)) pos (.obj [(k, valOf v)]))
  | .bare t :: ts, count, a => buildAttrsGo ts (count + 1) (setKey a (natToStr count) (.str t))
  | .skip :: ts, count, a => buildAttrsGo ts (count + 1) a

/-- `_getAttribute`'s loop over all tokens of an attribute text. -/
def buildAttrs (ts : List AttrTok) : Except Unit Attrs := buildAttrsGo ts 1 []

/-- `finder.getAttributes` (i.e. `_getAttribute` bound to the attribute-head
regex): when the head regex does not match, the attributes object stays
empty; otherwise the captured attribute text is tokenized and folded.
Outer `none` = tokenizer fuel exhausted (never occurs); `Except.error` =
the strict-mode `TypeError` described at `buildAttrsGo`. -/
def getAttributes (d : Delims) (m : Str) : Option (Except Unit Attrs) :=
  match getAttrText d m with
  | none => some (.ok [])
  | some atext => (attrTokens atext).map buildAttrs

/-! ## Tag records and the resolver passes -/

/-- A JS error value: its constructor and message. -/
inductive JsErr where
  | error (msg : Str)
  | typeError (msg : Str)
  | rangeError (msg : Str)
deriving Repr, DecidableEq

/-- A `ShortcodeParserTag` record. `end` is a Lean keyword, so the `end`
field of the source is called `endP` here. -/
structure Tag where
  tagName : Str
  endTag : Bool
  fullMatch : Str
  endP : Nat
  start : Nat
  attributes : Attrs
  content : Str
  tagContents : Str
  selfClosing : Bool
deriving Inhabited

/-- `ShortcodeParserTag(finder, result)`: build the record for the raw
match with span `sp` (`result[0] = strSub txt sp.1 sp.2`,
`result.lastIndex = sp.2`).  Field initialisers are evaluated in source
order (`tagName`, …, `attributes`, …, `tagContents`), so the first failing
extractor determines the thrown error: `exec` returning `null` makes the
`[1]` access throw a `TypeError`, and attribute building can throw the
strict-mode `TypeError` of `buildAttrsGo`.  Outer `none` is tokenizer fuel
exhaustion (never occurs). -/
def mkTag (d : Delims) (txt : Str) (sp : Nat × Nat) : Option (Except JsErr Tag) :=
  let m := strSub txt sp.1 sp.2
  match getTagName d m with
  | none => some (.error (.typeError (jstr "Cannot read properties of null")))
  | some nm =>
      match getAttributes d m with
      | none => none
      | some (.error _) =>
          some (.error (.typeError (jstr "Cannot create property on a primitive")))
      | some (.ok attrs) =>
          match getStartTagContent d m with
          | none => some (.error (.typeError (jstr "Cannot read properties of null")))
          | some tc =>
              some (.ok
                { tagName := nm
                  endTag := isEndTag d m
                  fullMatch := m
                  endP := sp.2
                  start := sp.2 - m.length
                  attributes := attrs
                  content := []
                  tagContents := tc
                  selfClosing := true })

/-- `Array.prototype.map` over the spans with `ShortcodeParserTag`:
evaluated left to right, the first thrown error aborts. -/
def mapTags (d : Delims) (txt : Str) : List (Nat × Nat) → Option (Except JsErr (List Tag))
  | [] => some (.ok [])
  | sp :: sps =>
      match mkTag d txt sp with
      | none => none
      | some (.error e) => some (.error e)
      | some (.ok t) =>
          match mapTags d txt sps with
          | none => none
          | some (.error e) => some (.error e)
          | some (.ok ts) => some (.ok (t :: ts))

/-- `_parse(txt, finder, parserInstance)`: extract all tag spans and build
a record for each (this revision applies no handler-based filtering here). -/
def parseTags (d : Delims) (txt : Str) : Option (Except JsErr (List Tag)) :=
  match extractSpans d txt with
  | none => none
  | some sps => mapTags d txt sps

/-- The mutation applied by `_fixEndTags` to a matching start record
`startRec` for the end record `endRec`: `content` becomes
`txt.substring(startRec.end, endRec.start)`, `fullMatch` is extended by the
new content plus the end tag's `fullMatch`, `end` becomes the end tag's
`end` and `selfClosing` is cleared. -/
def foldInto (txt : Str) (startRec endRec : Tag) : Tag :=
  let c := jsSubstring txt startRec.endP endRec.start
  { startRec with
      content := c
      fullMatch := startRec.fullMatch ++ c ++ endRec.fullMatch
      endP := endRec.endP
      selfClosing := false }

/-- One iteration of the inner `for (let nn = …)` loop of `_fixEndTags`:
fold `endRec` into the record at index `k` when it has the same `tagName`
and is not itself an end tag. -/
def applyFold (txt : Str) (endRec : Tag) (arr : List Tag) (k : Nat) : List Tag :=
  let t := arr.getD k default
  if t.tagName == endRec.tagName && !t.endTag then arr.set k (foldInto txt t endRec) else arr

/-- The inner loop of `_fixEndTags`, indices `k, k-1, …, 0` (the loop has
no `break`, so every preceding matching record is folded). -/
def fixInner (txt : Str) (endRec : Tag) : List Tag → Nat → List Tag
  | arr, 0 => applyFold txt endRec arr 0
  | arr, k + 1 => fixInner txt endRec (applyFold txt endRec arr (k + 1)) k

/-- The outer `.map` of `_fixEndTags` over indices `0, 1, …` of the
(mutated in place) array: at each index flagged `endTag`, run the inner
folding loop.  The fuel counts the remaining indices (the map visits the
array length exactly). -/
def fixAllGo (txt : Str) : Nat → List Tag → Nat → List Tag
  | 0, arr, _ => arr
  | fuel + 1, arr, n =>
      fixAllGo txt fuel
        (if (arr.getD n default).endTag then fixInner txt (arr.getD n default) arr n else arr)
        (n + 1)

/-- `_fixEndTags(txt, tags)`: run the folding pass, then drop every record
still flagged `endTag`. -/
def fixEndTags (txt : Str) (tags : List Tag) : List Tag :=
  (fixAllGo txt tags.length tags 0).filter (fun t => !t.endTag)

/-- The predicate of `_filterOverlappingTags`: keep the record at index `n`
unless some earlier record's `end` exceeds its `start`. -/
def keepTag (tags : List Tag) (n : Nat) : Bool :=
  (List.range n).all (fun nn => !((tags.getD n default).start < (tags.getD nn default).endP))

/-- The `filter` loop of `_filterOverlappingTags` from index `n` upward;
the fuel counts the remaining indices. -/
def filterOvGo (tags : List Tag) : Nat → Nat → List Tag
  | 0, _ => []
  | fuel + 1, n =>
      if keepTag tags n then tags.getD n default :: filterOvGo tags fuel (n + 1)
      else filterOvGo tags fuel (n + 1)

/-- `_filterOverlappingTags(tags)`. -/
def filterOverlappingTags (tags : List Tag) : List Tag := filterOvGo tags tags.length 0

/-- The tag list after `_fixEndTags` (before overlap filtering), as
computed inside `parse`. -/
def fixedTags (d : Delims) (txt : Str) : Option (Except JsErr (List Tag)) :=
  (parseTags d txt).map (Except.map (fixEndTags txt))

/-- `_filterOverlappingTags(_fixEndTags(txt, _parse(txt, …)))`: the
resolved tag set handed to `_runHandlers`. -/
def resolvedTags (d : Delims) (txt : Str) : Option (Except JsErr (List Tag)) :=
  (parseTags d txt).map (Except.map (fun l => filterOverlappingTags (fixEndTags txt l)))

/-! ## Registry, handler dispatch and the parse loop -/

/-- A value passed to `parse` after the text (or the values the recursive
call passes): an ordinary (string) value, or the parser-internal `finder`
object / frozen parser instance, which the source's recursive call
`exports.parse(parsedTxt, finder, exports)` supplies as parameters. -/
inductive JsParam where
  | str (s : Str)
  | finderObj
  | parserObj
deriving Repr, DecidableEq

/-- What a handler's returned deferred settles to: JS `undefined` or a
string. -/
inductive RetVal where
  | undef
  | str (s : Str)
deriving Repr, DecidableEq

/-- A handler's immediate return value: `undefined`, a string, or a
promise (already carrying its eventual settlement). -/
inductive HandlerRet where
  | undef
  | str (s : Str)
  | promise (r : Except JsErr RetVal)

/-- Invoking a handler either throws synchronously or returns a value. -/
inductive HandlerBehavior where
  | throws (e : JsErr)
  | ret (v : HandlerRet)

/-- A registered handler, invoked as `handler(tag, ...params)`. -/
def Handler := Tag → List JsParam → HandlerBehavior

/-- A registry key: an exact tag-name string, a regular expression, or a
predicate function.  JS `Map` compares regex/function keys by object
identity, modelled by the `id` field. -/
inductive RegKey where
  | name (s : Str)
  | pattern (id : Nat) (test : Str → Bool)
  | pred (id : Nat) (f : Str → Bool)

/-- `Map` key equality (SameValueZero): strings by value, regex/function
objects by identity. -/
def keyEq : RegKey → RegKey → Bool
  | .name a, .name b => a == b
  | .pattern i _, .pattern j _ => i == j
  | .pred i _, .pred j _ => i == j
  | _, _ => false

/-- The `tags` `Map` of a parser instance, in insertion order. -/
abbrev Registry := List (RegKey × Handler)

/-- `tags.has(k)`. -/
def mapHas (r : Registry) (k : RegKey) : Bool := r.any (fun p => keyEq p.1 k)

/-- `tags.get(k)` (as an option; `exports.get` wraps this with its
`RangeError`). -/
def mapGet? (r : Registry) (k : RegKey) : Option Handler :=
  (r.find? (fun p => keyEq p.1 k)).map Prod.snd

/-- `tags.set(k, h)`: overwrite in place (the original key object and its
position are kept), else append. -/
def mapSet (r : Registry) (k : RegKey) (h : Handler) : Registry :=
  if mapHas r k then r.map (fun p => if keyEq p.1 k then (p.1, h) else p) else r ++ [(k, h)]

/-- `_isSelectorMatch(selector, tag)`: a regex key tests, a function key is
applied, a string key matches nothing here. -/
def isSelectorMatch (k : RegKey) (tagContents : Str) : Bool :=
  match k with
  | .pattern _ t => t tagContents
  | .pred _ f => f tagContents
  | .name _ => false

/-- Handler selection of `_runHandlers`: the exact-name entry when
`tags.has(tag.tagName)`, else the `tags.forEach` scan with the `!promise`
guard, i.e. the first entry in insertion order whose selector matches
`tag.tagContents`. -/
def selectHandler (r : Registry) (tag : Tag) : Option Handler :=
  if mapHas r (.name tag.tagName) then mapGet? r (.name tag.tagName)
  else
    r.foldl
      (fun acc p =>
        match acc with
        | some _ => acc
        | none => if isSelectorMatch p.1 tag.tagContents then some p.2 else none)
      none

/-- `Promise.resolve(handler.apply({}, params) || '')` of `_applyHandler`:
the falsy-coercion `|| ''` applies to the immediate return value only — an
`undefined` (or empty-string) immediate result becomes `''`, while a
promise is adopted unchanged, so its settlement value is not coerced. -/
def applyHandlerVal : HandlerRet → Except JsErr RetVal
  | .undef => .ok (.str [])
  | .str s => .ok (.str s)
  | .promise r => r

/-- The `_tags.map(tag => …)` step of `_runHandlers`: per tag, select a
handler and invoke it at once (`_applyHandler` calls the handler
synchronously), so a synchronous throw aborts the whole map; a tag without
a matching handler contributes `none` (JS `undefined`). -/
def invokeAll (r : Registry) (tags : List Tag) (params : List JsParam) :
    Except JsErr (List (Option (Tag × Except JsErr RetVal))) :=
  match tags with
  | [] => .ok []
  | t :: ts =>
      match selectHandler r t with
      | none => (invokeAll r ts params).map (fun rest => none :: rest)
      | some h =>
          match h t params with
          | .throws e => .error e
          | .ret v => (invokeAll r ts params).map (fun rest => some (t, applyHandlerVal v) :: rest)

/-- `Promise.all` rejection: the first rejected entry (in array order — all
constituent promises are modelled as already settled). -/
def firstRejection : List (Option (Tag × Except JsErr RetVal)) → Option JsErr
  | [] => none
  | some (_, .error e) :: _ => some e
  | _ :: rest => firstRejection rest

/-- `String(replacer)` as coerced by `txt.replace(pat, replacer)`:
`undefined` becomes the text `"undefined"`. -/
def retToStr : RetVal → Str
  | .undef => jstr "undefined"
  | .str s => s

/-- The `.mapSeries` of `_runHandlers`: apply
`txt = txt.replace(result.tag.fullMatch, result.replacer)` for the
surviving results in array order. -/
def applyReplacements (txt : Str) : List (Option (Tag × Except JsErr RetVal)) → Str
  | [] => txt
  | some (tag, .ok rv) :: rest => applyReplacements (jsReplace txt tag.fullMatch (retToStr rv)) rest
  | _ :: rest => applyReplacements txt rest

/-- `_runHandlers(txt, _tags, params)`: outer `Except.error` = synchronous
throw out of the function, inner `Except` = the settlement of the returned
promise (rejection of `Promise.all` propagates through `.filter`,
`.mapSeries` and `.then`). -/
def runHandlers (r : Registry) (txt : Str) (tags : List Tag) (params : List JsParam) :
    Except JsErr (Except JsErr Str) :=
  match invokeAll r tags params with
  | .error e => .error e
  | .ok l =>
      match firstRejection l with
      | some e => .ok (.error e)
      | none => .ok (.ok (applyReplacements txt l))

/-- `exports.parse(txt, ...params)`: resolve tags, run the handlers, and —
when the pass changed the text — recurse via
`exports.parse(parsedTxt, finder, exports)`, whose rest parameter then
binds `params = [finder, exports]` (the original parameters are NOT
forwarded).  `none` = no result within `fuel` passes (or a diverging tag
scan); the outer `Except` is a synchronous throw, the inner the promise. -/
def parseLoop (d : Delims) (r : Registry) :
    Nat → Str → List JsParam → Option (Except JsErr (Except JsErr Str))
  | 0, _, _ => none
  | fuel + 1, txt, params =>
      match resolvedTags d txt with
      | none => none
      | some (.error e) => some (.error e)
      | some (.ok tags) =>
          match runHandlers r txt tags params with
          | .error e => some (.error e)
          | .ok (.error e) => some (.ok (.error e))
          | .ok (.ok txt') =>
              if txt' = txt then some (.ok (.ok txt'))
              else parseLoop d r fuel txt' [JsParam.finderObj, JsParam.parserObj]

/-! ## Registration (`add`) and construction -/

/-- A JS value passed as the `name` argument of `add`: a string, regular
expression, function, or anything else (carrying its `typeof` string). -/
inductive JsRef where
  | str (s : Str)
  | regex (id : Nat) (test : Str → Bool)
  | func (id : Nat) (f : Str → Bool)
  | other (typeName : Str)

/-- The `Map` key a reference registers under (none for invalid kinds). -/
def refToKey : JsRef → Option RegKey
  | .str s => some (.name s)
  | .regex i t => some (.pattern i t)
  | .func i f => some (.pred i f)
  | .other _ => none

/-- The `${name}` interpolation of the error messages (exact for strings —
the only case our theorems exercise; regex/function stringifications are
abbreviated). -/
def refDisplay : JsRef → Str
  | .str s => s
  | .regex _ _ => jstr "[regex]"
  | .func _ _ => jstr "[function]"
  | .other t => t

/-- `typeof name` for the invalid-reference message. -/
def refTypeName : JsRef → Str
  | .str _ => jstr "string"
  | .regex _ _ => jstr "object"
  | .func _ _ => jstr "function"
  | .other t => t

/-- A JS value passed as the `handler` argument (`_.isFunction` check). -/
inductive JsHandlerArg where
  | func (h : Handler)
  | notFunc (typeName : Str)

/-- `exports.has(name)`: true only for a valid key kind present in the map
(an invalid reference can never be a key of the map). -/
def hasRef (r : Registry) (ref : JsRef) : Bool :=
  match refToKey ref with
  | some k => mapHas r k
  | none => false

/-- `exports.get(name)`: `RangeError` when absent. -/
def regGet (r : Registry) (k : RegKey) (disp : Str) : Except JsErr Handler :=
  match mapGet? r k with
  | some h => .ok h
  | none => .error (.rangeError (jstr "Tag '" ++ disp ++ jstr "' does not exist"))

/-- `exports.add(name, handler, throwOnAlreadySet = true)`: the duplicate
check runs first, then the handler-callability check, then the
reference-kind check; only then is the map mutated and the stored handler
returned via `get`.  The returned registry is the post-call map (unchanged
when an error is thrown). -/
def add (r : Registry) (ref : JsRef) (harg : JsHandlerArg) (throwOnAlreadySet : Bool) :
    Registry × Except JsErr Handler :=
  if hasRef r ref && throwOnAlreadySet then
    (r, .error (.error (jstr "Tag '" ++ refDisplay ref ++ jstr "' already exists")))
  else
    match harg with
    | .notFunc _ =>
        (r, .error (.typeError
          (jstr "Cannot assign a non function as handler method for '" ++ refDisplay ref
            ++ jstr "'")))
    | .func h =>
        match refToKey ref with
        | none =>
            (r, .error (.typeError
              (jstr "Cannot add handler if the reference is not a string, regular expression or function. Reference of type: "
                ++ refTypeName ref ++ jstr ", was given.")))
        | some k =>
            let r' := mapSet r k h
            (r', regGet r' k (refDisplay ref))

/-- A parser instance: the delimiters baked into its finder and its
registry map. -/
structure ParserState where
  delims : Delims
  registry : Registry

/-- `ShortcodeParser(options)`: merge the options over the defaults, build
the finder and the empty map, freeze and return.  No validation of the
delimiter strings happens anywhere in the constructor. -/
def ShortcodeParserNew (startOpt endOpt : Option Str) : ParserState :=
  { delims := mergeOptions startOpt endOpt, registry := [] }

/-! ## Registry lemmas -/

theorem keyEq_name_iff (k : RegKey) (s : Str) : keyEq k (RegKey.name s) = true ↔ k = RegKey.name s := by
  cases k <;> simp [keyEq]

theorem mapHas_name_iff (r : Registry) (s : Str) :
    mapHas r (RegKey.name s) = true ↔ ∃ h, (RegKey.name s, h) ∈ r := by
  simp only [mapHas, List.any_eq_true, keyEq_name_iff]
  constructor
  · rintro ⟨p, hp, hk⟩
    exact ⟨p.2, by rwa [← hk, Prod.mk.eta]⟩
  · rintro ⟨h, hm⟩
    exact ⟨(RegKey.name s, h), hm, rfl⟩

theorem mapGet?_name_of_mem (r : Registry) (s : Str) (h : Handler)
    (hwf : r.Pairwise (fun a b => keyEq a.1 b.1 = false)) (hmem : (RegKey.name s, h) ∈ r) :
    mapGet? r (RegKey.name s) = some h := by
  induction r with
  | nil => cases hmem
  | cons p rest ih =>
      rcases List.mem_cons.mp hmem with heq | hmem'
      · subst heq
        simp [mapGet?, List.find?_cons, keyEq]
      · have hp : keyEq p.1 (RegKey.name s) = false := by
          have := (List.pairwise_cons.mp hwf).1 (RegKey.name s, h) hmem'
          simpa using this
        have hrec := ih (List.pairwise_cons.mp hwf).2 hmem'
        simpa [mapGet?, List.find?_cons, hp] using hrec

theorem selectFold_some (r : Registry) (tc : Str) (x : Handler) :
    r.foldl
      (fun acc p =>
        match acc with
        | some _ => acc
        | none => if isSelectorMatch p.1 tc then some p.2 else none)
      (some x) = some x := by
  induction r with
  | nil => rfl
  | cons p rest ih => simpa [List.foldl_cons] using ih

theorem selectFold_eq_find? (r : Registry) (tc : Str) :
    r.foldl
      (fun acc p =>
        match acc with
        | some _ => acc
        | none => if isSelectorMatch p.1 tc then some p.2 else none)
      none = (r.find? (fun p => isSelectorMatch p.1 tc)).map Prod.snd := by
  induction r with
  | nil => rfl
  | cons p rest ih =>
      by_cases hm : isSelectorMatch p.1 tc
      · simp [List.foldl_cons, List.find?_cons, hm, selectFold_some]
      · simp [List.foldl_cons, List.find?_cons, hm, ih]

/-! ## Concrete values shared by the witnesses -/

/-- The tag record extracted from the text `[[A]]`. -/
def tagA : Tag :=
  { tagName := jstr "A", endTag := false, fullMatch := jstr "[[A]]", endP := 5, start := 0,
    attributes := [], content := [], tagContents := jstr "A", selfClosing := true }

/-- The first start record extracted from `[[T]][[T]]x[[/T]]`. -/
def tagT0 : Tag :=
  { tagName := jstr "T", endTag := false, fullMatch := jstr "[[T]]", endP := 5, start := 0,
    attributes := [], content := [], tagContents := jstr "T", selfClosing := true }

/-- The second start record extracted from `[[T]][[T]]x[[/T]]`. -/
def tagT1 : Tag :=
  { tagName := jstr "T", endTag := false, fullMatch := jstr "[[T]]", endP := 10, start := 5,
    attributes := [], content := [], tagContents := jstr "T", selfClosing := true }

/-- The end record extracted from `[[T]][[T]]x[[/T]]`. -/
def tagTEnd : Tag :=
  { tagName := jstr "T", endTag := true, fullMatch := jstr "[[/T]]", endP := 17, start := 11,
    attributes := [], content := [], tagContents := jstr "/T", selfClosing := true }

/-- Display of one parse parameter (used by the demonstration handler of
the parameter-forwarding bug to report what it received). -/
def paramRepr : JsParam → Str
  | .str s => s
  | .finderObj => jstr "<finder>"
  | .parserObj => jstr "<parser>"

/-- Comma-joined display of a parameter list. -/
def encodeParams (ps : List JsParam) : Str := List.intercalate (jstr ",") (ps.map paramRepr)

/-! ## Claim theorems -/

/-- C10: in `add(name, handler, throwOnAlreadySet)` the duplicate-name
check runs before the handler-callability and reference-type checks: when
`name` is already registered and `throwOnAlreadySet` is `true` (its default
value), `add` with a non-callable handler throws the duplicate
`Error "Tag '<name>' already exists"` — not the `TypeError` — and the
registry is returned unchanged. -/
theorem C10_duplicate_check_first (r : Registry) (n : Str) (tname : Str)
    (hdup : mapHas r (RegKey.name n) = true) :
    add r (JsRef.str n) (JsHandlerArg.notFunc tname) true =
      (r, .error (.error (jstr "Tag '" ++ n ++ jstr "' already exists"))) := by
  simp [add, hasRef, refToKey, refDisplay, hdup]

/-- Witness for C10 at a registry already holding `'T'`. -/
theorem C10_witness :
    add [(RegKey.name (jstr "T"), fun _ _ => HandlerBehavior.ret (.str (jstr "h")))]
      (JsRef.str (jstr "T")) (JsHandlerArg.notFunc (jstr "string")) true =
      ([(RegKey.name (jstr "T"), fun _ _ => HandlerBehavior.ret (.str (jstr "h")))],
        .error (.error (jstr "Tag 'T' already exists"))) :=
  C10_duplicate_check_first _ _ _ rfl

/-- C2: handler selection picks the exact-name registry entry for the
tag's `tagName` whenever one exists — regardless of its position relative
to pattern/predicate entries — and only otherwise scans the entries in
registration order, selecting the first whose pattern matches (or whose
predicate returns true on) the tag's `tagContents`.  The well-formedness
hypothesis states that the registry keys are pairwise distinct, which
holds for every `Map`-built registry. -/
theorem C2_exact_name_priority (r : Registry) (tag : Tag)
    (hwf : r.Pairwise (fun a b => keyEq a.1 b.1 = false)) :
    (∀ h : Handler, (RegKey.name tag.tagName, h) ∈ r → selectHandler r tag = some h) ∧
    ((∀ h : Handler, (RegKey.name tag.tagName, h) ∉ r) →
      selectHandler r tag = (r.find? (fun p => isSelectorMatch p.1 tag.tagContents)).map Prod.snd) := by
  constructor
  · intro h hmem
    have hhas : mapHas r (RegKey.name tag.tagName) = true :=
      (mapHas_name_iff r tag.tagName).mpr ⟨h, hmem⟩
    simp only [selectHandler, hhas, if_true]
    exact mapGet?_name_of_mem r tag.tagName h hwf hmem
  · intro hno
    have hhas : mapHas r (RegKey.name tag.tagName) = false := by
      rcases Bool.eq_false_or_eq_true (mapHas r (RegKey.name tag.tagName)) with hf | ht
      · rcases (mapHas_name_iff r tag.tagName).mp hf with ⟨h, hm⟩
        exact absurd hm (hno h)
      · exact ht
    simp only [selectHandler, hhas, Bool.false_eq_true, if_false]
    exact selectFold_eq_find? r tag.tagContents

/-- Witness for C2: an always-matching pattern entry is registered before
the exact-name entry, yet the exact-name handler is selected. -/
theorem C2_witness :
    selectHandler
      [(RegKey.pattern 0 (fun _ => true), fun _ _ => HandlerBehavior.ret (.str (jstr "PAT"))),
       (RegKey.name (jstr "A"), fun _ _ => HandlerBehavior.ret (.str (jstr "NAME")))]
      tagA = some (fun _ _ => HandlerBehavior.ret (.str (jstr "NAME"))) :=
  (C2_exact_name_priority _ tagA
      (by
        refine List.Pairwise.cons ?_ (List.pairwise_singleton _ _)
        intro b hb
        simp only [List.mem_singleton] at hb
        subst hb
        rfl)).1
    _ (by simp [tagA])

/-- Helper for C9: with both delimiters empty, the tag-span regex produces
a zero-length match at position 0 and `lastIndex` never advances, so the
extraction `while` loop never terminates (no fuel suffices). -/
theorem scanLoop_empty_delims_none (txt : Str) (fuel : Nat) :
    scanLoop ⟨[], []⟩ txt fuel 0 = none := by
  have hfind : tagFindMatch ⟨[], []⟩ txt 0 = some (0, 0) := by
    have h0 : tagMatchAt ⟨[], []⟩ txt 0 = some 0 := by
      simp [tagMatchAt, occursAt, strSub, List.range'_succ]
    simp [tagFindMatch, List.range'_succ, List.findSome?_cons, h0]
  induction fuel with
  | zero => rfl
  | succ fuel ih => simp [scanLoop, hfind, ih]

/-- C9 counterexample: constructing a parser with an empty start delimiter
does NOT fail — the constructor performs no delimiter validation and
returns a parser state built from the merged options.  (The embedded
constructor is total because the JS constructor contains no validation and
no throwing operation: it only merges the options, escapes the delimiter
characters into the finder patterns, creates the empty `Map`, and freezes
the instance.) -/
theorem C9_counterexample :
    ShortcodeParserNew (some []) none =
      { delims := { startD := [], endD := jstr "]]" }, registry := [] } := rfl

/-- C9 amended: delimiter configuration is never validated — construction
succeeds for every configuration, including empty delimiter strings.  The
only failure mode is at parse time, and only when both delimiters are
empty: the extraction scan then loops on a zero-length match forever, so
`parse` never settles (no pass fuel yields a result). -/
theorem C9_amended_no_construction_validation :
    (∀ s e : Option Str, ShortcodeParserNew s e = { delims := mergeOptions s e, registry := [] }) ∧
    (∀ (txt : Str) (fuel : Nat), scanLoop ⟨[], []⟩ txt fuel 0 = none) ∧
    (∀ (r : Registry) (txt : Str) (params : List JsParam) (fuel : Nat),
      parseLoop ⟨[], []⟩ r fuel txt params = none) := by
  refine ⟨fun s e => rfl, scanLoop_empty_delims_none, ?_⟩
  intro r txt params fuel
  cases fuel with
  | zero => rfl
  | succ fuel =>
      have hs : extractSpans ⟨[], []⟩ txt = none := scanLoop_empty_delims_none txt (txt.length + 2)
      simp [parseLoop, resolvedTags, parseTags, hs]

/-- C5 counterexample: a handler that throws synchronously makes `parse`
itself throw synchronously (outer `Except.error`, before any deferred
exists) — not reject the returned deferred as the claim states (which
would be `some (.ok (.error _))`). -/
theorem C5_counterexample :
    parseLoop defaultOptions
      [(RegKey.name (jstr "A"), fun _ _ => HandlerBehavior.throws (.error (jstr "boom")))]
      1 (jstr "[[A]]") [] = some (.error (.error (jstr "boom"))) := rfl

/-- C5 amended: a handler that throws synchronously propagates as a
synchronous throw out of `parse` (no deferred result is produced); when
every selected handler starts without throwing and some handler's deferred
result rejects, the deferred result of `parse` rejects with the first such
rejection.  In both cases no partially-replaced text is returned and no
other handler's success is reported: the result carries only the error. -/
theorem C5_amended_failure_propagation (d : Delims) (r : Registry) (txt : Str)
    (params : List JsParam) (fuel : Nat) (tags : List Tag)
    (hres : resolvedTags d txt = some (.ok tags)) :
    (∀ e, invokeAll r tags params = .error e →
      parseLoop d r (fuel + 1) txt params = some (.error e)) ∧
    (∀ l e, invokeAll r tags params = .ok l → firstRejection l = some e →
      parseLoop d r (fuel + 1) txt params = some (.ok (.error e))) := by
  constructor
  · intro e he
    simp [parseLoop, hres, runHandlers, he]
  · intro l e hl hr
    simp [parseLoop, hres, runHandlers, hl, hr]

/-- Witness for C5 amended: the synchronous-throw case and the
deferred-rejection case at the text `[[A]]`. -/
theorem C5_witness :
    parseLoop defaultOptions
        [(RegKey.name (jstr "A"), fun _ _ => HandlerBehavior.throws (.error (jstr "boom")))]
        1 (jstr "[[A]]") [] = some (.error (.error (jstr "boom"))) ∧
    parseLoop defaultOptions
        [(RegKey.name (jstr "A"),
          fun _ _ => HandlerBehavior.ret (.promise (.error (.error (jstr "late")))))]
        1 (jstr "[[A]]") [] = some (.ok (.error (.error (jstr "late")))) :=
  ⟨(C5_amended_failure_propagation defaultOptions _ (jstr "[[A]]") [] 0 [tagA] rfl).1 _ rfl,
   (C5_amended_failure_propagation defaultOptions _ (jstr "[[A]]") [] 0 [tagA] rfl).2 _ _ rfl rfl⟩

/-- C6 counterexample: a deferred handler result that resolves to
`undefined` does NOT become the empty string: the `|| ''` coercion runs
before promise adoption, so the replacer stays `undefined` and
`String.replace` coerces it to the text `"undefined"` — `parse("[[A]]")`
resolves to `"undefined"`, not to `""`. -/
theorem C6_counterexample :
    parseLoop defaultOptions
        [(RegKey.name (jstr "A"), fun _ _ => HandlerBehavior.ret (.promise (.ok .undef)))]
        2 (jstr "[[A]]") [] = some (.ok (.ok (jstr "undefined"))) ∧
    jstr "undefined" ≠ jstr "" := by
  refine ⟨rfl, by simp [jstr]⟩

/-- C6 amended: the handler's result is awaited — immediate values and
deferred results are both supported — but the empty-string coercion
applies only to the immediate value: an immediate `undefined` (or empty
string) becomes `''`, a deferred result resolving to a string `s` is
spliced as `s`, a deferred result resolving to `undefined` is spliced as
the text `"undefined"` (the coercion of `String.replace`), and a rejected
deferred result propagates as the rejection of the pass. -/
theorem C6_amended_result_awaiting (r : Registry) (txt : Str) (tag : Tag)
    (params : List JsParam) (h : Handler) (hsel : selectHandler r tag = some h) :
    (h tag params = .ret .undef →
      runHandlers r txt [tag] params = .ok (.ok (jsReplace txt tag.fullMatch []))) ∧
    (∀ s, h tag params = .ret (.str s) →
      runHandlers r txt [tag] params = .ok (.ok (jsReplace txt tag.fullMatch s))) ∧
    (h tag params = .ret (.promise (.ok .undef)) →
      runHandlers r txt [tag] params = .ok (.ok (jsReplace txt tag.fullMatch (jstr "undefined")))) ∧
    (∀ s, h tag params = .ret (.promise (.ok (.str s))) →
      runHandlers r txt [tag] params = .ok (.ok (jsReplace txt tag.fullMatch s))) ∧
    (∀ e, h tag params = .ret (.promise (.error e)) →
      runHandlers r txt [tag] params = .ok (.error e)) := by
  refine ⟨fun hc => ?_, fun s hc => ?_, fun hc => ?_, fun s hc => ?_, fun e hc => ?_⟩
  all_goals
    simp [runHandlers, invokeAll, hsel, hc, applyHandlerVal, firstRejection, applyReplacements,
      retToStr, Except.map]

/-- Witness for C6 amended: the deferred-`undefined` case and the
immediate-`undefined` case at the tag `[[A]]`. -/
theorem C6_witness :
    runHandlers [(RegKey.name (jstr "A"), fun _ _ => HandlerBehavior.ret (.promise (.ok .undef)))]
        (jstr "[[A]]") [tagA] [] = .ok (.ok (jsReplace (jstr "[[A]]") tagA.fullMatch (jstr "undefined"))) ∧
    runHandlers [(RegKey.name (jstr "A"), fun _ _ => HandlerBehavior.ret .undef)]
        (jstr "x[[A]]y") [tagA] [] = .ok (.ok (jsReplace (jstr "x[[A]]y") tagA.fullMatch [])) :=
  ⟨(C6_amended_result_awaiting
      [(RegKey.name (jstr "A"), fun _ _ => HandlerBehavior.ret (.promise (.ok .undef)))]
      (jstr "[[A]]") tagA []
      (fun _ _ => HandlerBehavior.ret (.promise (.ok .undef))) rfl).2.2.1 rfl,
   (C6_amended_result_awaiting
      [(RegKey.name (jstr "A"), fun _ _ => HandlerBehavior.ret .undef)]
      (jstr "x[[A]]y") tagA []
      (fun _ _ => HandlerBehavior.ret .undef) rfl).1 rfl⟩

/-- C7 (demonstration of the code bug): the recursive call of `parse` is
`exports.parse(parsedTxt, finder, exports)`, so in every pass after the
first the handlers receive the parser-internal `finder` object and the
frozen parser instance as their extra parameters instead of the original
`extraParams`.  Here `parse("[[A]]", "p")` with `A ↦ "[[B]]"` and a `B`
handler that reports its received parameters resolves to
`"<finder>,<parser>"` — the original parameter `"p"` is not forwarded —
while in the first pass the original parameter is received. -/
theorem C7_recursive_pass_params_bug :
    parseLoop defaultOptions
        [(RegKey.name (jstr "A"), fun _ _ => HandlerBehavior.ret (.str (jstr "[[B]]"))),
         (RegKey.name (jstr "B"), fun _ ps => HandlerBehavior.ret (.str (encodeParams ps)))]
        3 (jstr "[[A]]") [JsParam.str (jstr "p")] = some (.ok (.ok (jstr "<finder>,<parser>"))) ∧
    parseLoop defaultOptions
        [(RegKey.name (jstr "A"), fun _ ps => HandlerBehavior.ret (.str (encodeParams ps)))]
        2 (jstr "[[A]]") [JsParam.str (jstr "p")] = some (.ok (.ok (jstr "p"))) :=
  ⟨rfl, rfl⟩

/-! ## End-tag folding (C1) -/

theorem getD_set_self {α : Type _} :
    ∀ (l : List α) (i : Nat) (a d : α), i < l.length → (l.set i a).getD i d = a
  | [], _, _, _, h => absurd h (by simp)
  | _ :: _, 0, _, _, _ => rfl
  | _ :: xs, i + 1, a, d, h => getD_set_self xs i a d (by simpa using h)

theorem getD_set_ne {α : Type _} :
    ∀ (l : List α) (i j : Nat) (a d : α), i ≠ j → (l.set i a).getD j d = l.getD j d
  | [], _, _, _, _, _ => rfl
  | _ :: _, 0, 0, _, _, h => absurd rfl h
  | _ :: _, 0, _ + 1, _, _, _ => rfl
  | _ :: _, _ + 1, 0, _, _, _ => rfl
  | _ :: xs, i + 1, j + 1, a, d, h => getD_set_ne xs i j a d (fun hc => h (by omega))

theorem foldCond_iff (t er : Tag) :
    (t.tagName == er.tagName && !t.endTag) = true ↔
      t.tagName = er.tagName ∧ t.endTag = false := by
  simp [Bool.and_eq_true, Bool.not_eq_true']

theorem applyFold_length (txt : Str) (er : Tag) (arr : List Tag) (k : Nat) :
    (applyFold txt er arr k).length = arr.length := by
  simp only [applyFold]
  by_cases hb : ((arr.getD k default).tagName == er.tagName && !(arr.getD k default).endTag) = true
  · rw [if_pos hb, List.length_set]
  · rw [if_neg hb]

theorem applyFold_getD (txt : Str) (er : Tag) (arr : List Tag) (k m : Nat)
    (hm : m < arr.length) :
    (applyFold txt er arr k).getD m default =
      if m = k ∧ (arr.getD k default).tagName = er.tagName ∧ (arr.getD k default).endTag = false
      then foldInto txt (arr.getD k default) er
      else arr.getD m default := by
  simp only [applyFold]
  by_cases hc : (arr.getD k default).tagName = er.tagName ∧ (arr.getD k default).endTag = false
  · rw [if_pos ((foldCond_iff _ _).mpr hc)]
    by_cases hmk : m = k
    · subst hmk
      rw [getD_set_self _ _ _ _ hm, if_pos ⟨rfl, hc⟩]
    · rw [getD_set_ne _ _ _ _ _ (fun h => hmk h.symm), if_neg (fun h => hmk h.1)]
  · rw [if_neg (fun hb => hc ((foldCond_iff _ _).mp hb)), if_neg (fun h => hc h.2)]

theorem fixInner_length (txt : Str) (er : Tag) (arr : List Tag) (k : Nat) :
    (fixInner txt er arr k).length = arr.length := by
  induction k generalizing arr with
  | zero => exact applyFold_length txt er arr 0
  | succ k ih => rw [fixInner, ih, applyFold_length]

theorem fixInner_getD (txt : Str) (er : Tag) (arr : List Tag) (k m : Nat)
    (hm : m < arr.length) :
    (fixInner txt er arr k).getD m default =
      if m ≤ k ∧ (arr.getD m default).tagName = er.tagName ∧ (arr.getD m default).endTag = false
      then foldInto txt (arr.getD m default) er
      else arr.getD m default := by
  induction k generalizing arr with
  | zero =>
      rw [fixInner, applyFold_getD txt er arr 0 m hm]
      by_cases hm0 : m = 0
      · subst hm0
        simp
      · rw [if_neg (fun h => hm0 h.1), if_neg (fun h => hm0 (Nat.le_zero.mp h.1))]
  | succ k ih =>
      rw [fixInner]
      have hm' : m < (applyFold txt er arr (k + 1)).length := by
        rw [applyFold_length]; exact hm
      by_cases hmk1 : m = k + 1
      · subst hmk1
        by_cases hc : (arr.getD (k + 1) default).tagName = er.tagName ∧
            (arr.getD (k + 1) default).endTag = false
        · have hb : (applyFold txt er arr (k + 1)).getD (k + 1) default =
              foldInto txt (arr.getD (k + 1) default) er := by
            rw [applyFold_getD txt er arr (k + 1) (k + 1) hm, if_pos ⟨rfl, hc⟩]
          rw [ih _ hm', hb, if_neg (fun h => absurd h.1 (by omega)), if_pos ⟨le_rfl, hc⟩]
        · have hb : (applyFold txt er arr (k + 1)).getD (k + 1) default =
              arr.getD (k + 1) default := by
            rw [applyFold_getD txt er arr (k + 1) (k + 1) hm, if_neg (fun h => hc h.2)]
          rw [ih _ hm', hb, if_neg (fun h => absurd h.1 (by omega)), if_neg (fun h => hc h.2)]
      · have hb : (applyFold txt er arr (k + 1)).getD m default = arr.getD m default := by
          rw [applyFold_getD txt er arr (k + 1) m hm, if_neg (fun h => hmk1 h.1)]
        rw [ih _ hm', hb]
        by_cases hmk : m ≤ k
        · by_cases hc : (arr.getD m default).tagName = er.tagName ∧
              (arr.getD m default).endTag = false
          · rw [if_pos ⟨hmk, hc⟩, if_pos ⟨by omega, hc⟩]
          · rw [if_neg (fun h => hc h.2), if_neg (fun h => hc h.2)]
        · rw [if_neg (fun h => hmk h.1), if_neg (fun h => absurd h.1 (by omega))]

/-- C1 counterexample: for the text `[[T]][[T]]x[[/T]]` the single end tag
`[[/T]]` (span `[11,17)`) folds into BOTH preceding `T` start records: the
backward scan of `_fixEndTags` has no `break` and no folded-already check,
so not only the nearest start `[5,10)` but also the first start `[0,5)` get
`content`/`fullMatch`/`end`/`selfClosing` updated (first record: `end`
`5 → 17`, `content` `"[[T]]x"`).  This refutes "the fold is applied to
exactly one start record … no other start record is modified by that end
tag". -/
theorem C1_counterexample :
    (fixedTags defaultOptions (jstr "[[T]][[T]]x[[/T]]")).map
        (Except.map (List.map (fun t => (t.start, t.endP, t.selfClosing, t.content)))) =
      some (.ok [(0, 17, false, jstr "[[T]]x"), (5, 17, false, jstr "x")]) := rfl

/-- C1 amended: for a record flagged `endTag` at index `n`, the folding
pass applies the fold to EVERY preceding record with the same `tagName`
that is not itself an end tag (the backward scan does not stop at the
nearest such record and does not skip records folded by an earlier end
tag); each such record's `content` becomes the text strictly between its
current `end` and the end tag's `start`, its `fullMatch` is extended with
that content plus the end tag's `fullMatch`, its `end` becomes the end
tag's `end`, and its `selfClosing` flag is cleared (`foldInto`); every
other record is left unmodified by that end tag. -/
theorem C1_amended_fold_every_preceding (txt : Str) (arr : List Tag) (n : Nat)
    (hn : n < arr.length) (he : (arr.getD n default).endTag = true) :
    (fixInner txt (arr.getD n default) arr n).length = arr.length ∧
    ∀ m, m < arr.length →
      (fixInner txt (arr.getD n default) arr n).getD m default =
        if m ≤ n ∧ (arr.getD m default).tagName = (arr.getD n default).tagName ∧
            (arr.getD m default).endTag = false
        then foldInto txt (arr.getD m default) (arr.getD n default)
        else arr.getD m default := by
  refine ⟨fixInner_length txt _ arr n, ?_⟩
  intro m hm
  exact fixInner_getD txt (arr.getD n default) arr n m hm

/-- Witness for C1 amended at the extracted records of
`[[T]][[T]]x[[/T]]`: the farther (first) start record is folded too. -/
theorem C1_witness :
    (fixInner (jstr "[[T]][[T]]x[[/T]]")
        (([tagT0, tagT1, tagTEnd] : List Tag).getD 2 default)
        [tagT0, tagT1, tagTEnd] 2).getD 0 default =
      foldInto (jstr "[[T]][[T]]x[[/T]]") tagT0 tagTEnd := by
  have h := (C1_amended_fold_every_preceding (jstr "[[T]][[T]]x[[/T]]")
      [tagT0, tagT1, tagTEnd] 2 (by decide) rfl).2 0 (by decide)
  rw [h, if_pos (by refine ⟨by omega, rfl, rfl⟩)]
  rfl

/-! ## Skeleton preservation through the resolver (for C3 and C8) -/

/-- The tag-record fields never touched by end-tag folding: name, head
text, start offset and the end-tag flag. -/
def SameSkeleton (a b : Tag) : Prop :=
  a.tagName = b.tagName ∧ a.tagContents = b.tagContents ∧ a.start = b.start ∧ a.endTag = b.endTag

theorem SameSkeleton.refl (a : Tag) : SameSkeleton a a := ⟨rfl, rfl, rfl, rfl⟩

theorem SameSkeleton.trans {a b c : Tag} (h₁ : SameSkeleton a b) (h₂ : SameSkeleton b c) :
    SameSkeleton a c :=
  ⟨h₁.1.trans h₂.1, h₁.2.1.trans h₂.2.1, h₁.2.2.1.trans h₂.2.2.1, h₁.2.2.2.trans h₂.2.2.2⟩

theorem foldInto_skeleton (txt : Str) (t er : Tag) : SameSkeleton (foldInto txt t er) t :=
  ⟨rfl, rfl, rfl, rfl⟩

theorem fixInner_skeleton (txt : Str) (er : Tag) (arr : List Tag) (k m : Nat)
    (hm : m < arr.length) :
    SameSkeleton ((fixInner txt er arr k).getD m default) (arr.getD m default) := by
  rw [fixInner_getD txt er arr k m hm]
  split
  · exact foldInto_skeleton txt _ er
  · exact SameSkeleton.refl _

theorem fixAllGo_length (txt : Str) (fuel : Nat) (arr : List Tag) (n : Nat) :
    (fixAllGo txt fuel arr n).length = arr.length := by
  induction fuel generalizing arr n with
  | zero => rfl
  | succ fuel ih =>
      rw [fixAllGo, ih]
      split
      · rw [fixInner_length]
      · rfl

theorem fixAllGo_skeleton (txt : Str) (fuel : Nat) (arr : List Tag) (n m : Nat)
    (hm : m < arr.length) :
    SameSkeleton ((fixAllGo txt fuel arr n).getD m default) (arr.getD m default) := by
  induction fuel generalizing arr n with
  | zero => exact SameSkeleton.refl _
  | succ fuel ih =>
      rw [fixAllGo]
      by_cases he : (arr.getD n default).endTag
      · rw [if_pos he]
        have hm' : m < (fixInner txt (arr.getD n default) arr n).length := by
          rw [fixInner_length]; exact hm
        exact (ih _ (n + 1) hm').trans (fixInner_skeleton txt _ arr n m hm)
      · rw [if_neg he]
        exact ih arr (n + 1) hm

theorem getD_eq_get {α : Type _} (l : List α) (d : α) (i : Nat) (h : i < l.length) :
    l.getD i d = l.get ⟨i, h⟩ := by
  rw [List.getD_eq_getElem?_getD, List.getElem?_eq_getElem h]
  rfl

theorem getD_mem_of_lt {α : Type _} (l : List α) (d : α) (i : Nat) (h : i < l.length) :
    l.getD i d ∈ l := by
  rw [getD_eq_get l d i h]
  exact l.get_mem i h

theorem mem_exists_getD {α : Type _} {l : List α} {a : α} (d : α) (h : a ∈ l) :
    ∃ i, i < l.length ∧ l.getD i d = a := by
  obtain ⟨i, hi, hget⟩ := List.mem_iff_getElem.mp h
  exact ⟨i, hi, by rw [getD_eq_get l d i hi]; simpa using hget⟩

theorem filterOvGo_subset (tags : List Tag) (fuel n : Nat) :
    ∀ t ∈ filterOvGo tags fuel n,
      ∃ m, m < n + fuel ∧ n ≤ m ∧ t = tags.getD m default ∧ keepTag tags m = true := by
  induction fuel generalizing n with
  | zero => intro t ht; cases ht
  | succ fuel ih =>
      intro t ht
      rw [filterOvGo] at ht
      by_cases hk : keepTag tags n
      · rw [if_pos hk] at ht
        rcases List.mem_cons.mp ht with heq | hmem
        · exact ⟨n, by omega, le_rfl, heq, hk⟩
        · obtain ⟨m, hm1, hm2, hm3, hm4⟩ := ih (n + 1) t hmem
          exact ⟨m, by omega, by omega, hm3, hm4⟩
      · rw [if_neg hk] at ht
        obtain ⟨m, hm1, hm2, hm3, hm4⟩ := ih (n + 1) t ht
        exact ⟨m, by omega, by omega, hm3, hm4⟩

/-- Every record of the resolved set shares its selection-relevant fields
(`tagName`, `tagContents`) — and its `start` and `endTag` flag — with some
record of the raw extracted list. -/
theorem resolved_skeleton (txt : Str) (ptags : List Tag) :
    ∀ t ∈ filterOverlappingTags (fixEndTags txt ptags),
      ∃ t' ∈ ptags, SameSkeleton t t' := by
  intro t ht
  obtain ⟨m, hm1, _, hm3, _⟩ :=
    filterOvGo_subset (fixEndTags txt ptags) (fixEndTags txt ptags).length 0 t ht
  simp only [Nat.zero_add] at hm1
  have hmemFixed : t ∈ fixEndTags txt ptags := by
    rw [hm3]; exact getD_mem_of_lt _ _ m hm1
  have hmemArr : t ∈ fixAllGo txt ptags.length ptags 0 :=
    List.mem_of_mem_filter hmemFixed
  obtain ⟨i, hi, hgd⟩ := mem_exists_getD default hmemArr
  have hi' : i < ptags.length := by
    rw [fixAllGo_length] at hi; exact hi
  refine ⟨ptags.getD i default, getD_mem_of_lt _ _ i hi', ?_⟩
  rw [← hgd]
  exact fixAllGo_skeleton txt ptags.length ptags 0 i hi'

theorem selectHandler_skeleton (r : Registry) {a b : Tag} (h : SameSkeleton a b) :
    selectHandler r a = selectHandler r b := by
  simp only [selectHandler, h.1, h.2.1]

theorem invokeAll_all_none (r : Registry) (tags : List Tag) (params : List JsParam)
    (h : ∀ t ∈ tags, selectHandler r t = none) :
    invokeAll r tags params = .ok (List.replicate tags.length none) := by
  induction tags with
  | nil => rfl
  | cons t ts ih =>
      rw [invokeAll, h t (List.mem_cons_self t ts), ih (fun x hx => h x (List.mem_cons_of_mem t hx))]
      rfl

theorem firstRejection_all_none (n : Nat) :
    firstRejection (List.replicate n none) = none := by
  induction n with
  | zero => rfl
  | succ n ih => simpa [List.replicate, firstRejection] using ih

theorem applyReplacements_all_none (txt : Str) (n : Nat) :
    applyReplacements txt (List.replicate n none) = txt := by
  induction n with
  | zero => rfl
  | succ n ih => simpa [List.replicate, applyReplacements] using ih

/-- C3 counterexample: the fixed-point claim is not unconditional over
inputs without matching handlers.  For `[[X 1=a]]` with an EMPTY registry
(so certainly no exact-name, pattern or predicate match), parse does not
resolve to the text: building the tag record assigns `attributes[1] = {}`
and then `attributes["1"] = "a"` to the same property, so the subsequent
`attributes[1]["1"] = "a"` is a strict-mode `TypeError` on a primitive
that propagates synchronously out of `parse`. -/
theorem C3_counterexample :
    parseLoop defaultOptions [] 1 (jstr "[[X 1=a]]") [] =
      some (.error (.typeError (jstr "Cannot create property on a primitive"))) ∧
    (some (.error (.typeError (jstr "Cannot create property on a primitive"))) :
        Option (Except JsErr (Except JsErr Str))) ≠
      some (.ok (.ok (jstr "[[X 1=a]]"))) := by
  refine ⟨rfl, ?_⟩
  intro h
  injection h with h'
  exact Except.noConfusion h'

/-- C3 amended: when every extracted tag record is constructed without
throwing and no record has any matching registered handler (neither
exact-name nor pattern/predicate), a single pass leaves the text
unchanged, the fixed-point test succeeds, and `parse` resolves to the
original text without recursing: one unit of pass fuel suffices.
(Without the construction proviso the claim fails: see the
counterexample, where attribute building throws synchronously.) -/
theorem C3_fixed_point_no_handler (d : Delims) (r : Registry) (txt : Str)
    (params : List JsParam) (ptags : List Tag)
    (hp : parseTags d txt = some (.ok ptags))
    (hnone : ∀ t ∈ ptags, selectHandler r t = none) :
    parseLoop d r 1 txt params = some (.ok (.ok txt)) := by
  have hres : resolvedTags d txt =
      some (.ok (filterOverlappingTags (fixEndTags txt ptags))) := by
    simp [resolvedTags, hp, Except.map]
  have hsel : ∀ t ∈ filterOverlappingTags (fixEndTags txt ptags), selectHandler r t = none := by
    intro t ht
    obtain ⟨t', ht', hskel⟩ := resolved_skeleton txt ptags t ht
    rw [selectHandler_skeleton r hskel]
    exact hnone t' ht'
  simp [parseLoop, hres, runHandlers, invokeAll_all_none r _ params hsel,
    firstRejection_all_none, applyReplacements_all_none]

/-- Witness for C3: the text `x [[A]] y` against a registry holding only a
handler for `B`. -/
theorem C3_witness :
    parseLoop defaultOptions
        [(RegKey.name (jstr "B"), fun _ _ => HandlerBehavior.ret (.str (jstr "bee")))]
        1 (jstr "x [[A]] y") [] = some (.ok (.ok (jstr "x [[A]] y"))) :=
  C3_fixed_point_no_handler defaultOptions _ _ []
    [{ tagName := jstr "A", endTag := false, fullMatch := jstr "[[A]]", endP := 7, start := 2,
       attributes := [], content := [], tagContents := jstr "A", selfClosing := true }]
    rfl
    (by
      intro t ht
      rw [List.mem_singleton] at ht
      subst ht
      rfl)

/-! ## Span bounds and ordering of the raw scan (for C8) -/

theorem pairwise_of_getD {α : Type _} (l : List α) (d : α) (R : α → α → Prop)
    (h : ∀ i j, i < j → j < l.length → R (l.getD i d) (l.getD j d)) : l.Pairwise R := by
  rw [List.pairwise_iff_getElem]
  intro i j hi hj hij
  have hr := h i j hij hj
  rwa [getD_eq_get l d i hi, getD_eq_get l d j hj, List.get_eq_getElem, List.get_eq_getElem] at hr

theorem getD_of_pairwise {α : Type _} (l : List α) (d : α) (R : α → α → Prop)
    (hp : l.Pairwise R) :
    ∀ i j, i < j → j < l.length → R (l.getD i d) (l.getD j d) := by
  intro i j hij hj
  have hi : i < l.length := lt_trans hij hj
  have hr := List.pairwise_iff_getElem.mp hp i j hi hj hij
  rwa [getD_eq_get l d i hi, getD_eq_get l d j hj, List.get_eq_getElem, List.get_eq_getElem]

theorem occursAt_add_le (pat txt : Str) (i : Nat) (hp : pat ≠ [])
    (h : occursAt pat txt i = true) : i + pat.length ≤ txt.length := by
  have heq : (txt.drop i).take (i + pat.length - i) = pat := by
    simpa [occursAt, strSub] using h
  have hlen := congrArg List.length heq
  simp only [List.length_take, List.length_drop] at hlen
  have hne : pat.length ≠ 0 := fun h0 => hp (List.length_eq_zero.mp h0)
  omega

theorem tagMatchAt_bounds (d : Delims) (txt : Str) (s e : Nat)
    (h : tagMatchAt d txt s = some e) :
    s + d.startD.length + d.endD.length ≤ e ∧ e ≤ txt.length := by
  unfold tagMatchAt at h
  by_cases hs : occursAt d.startD txt s = true
  · rw [if_pos hs] at h
    obtain ⟨t, ht, hte⟩ := Option.map_eq_some'.mp h
    have htmem := List.mem_of_find?_eq_some ht
    have htocc := List.find?_some ht
    obtain ⟨k, hk, hkt⟩ := List.mem_range'.mp htmem
    have htw : t ≤ min (firstLT txt (s + d.startD.length)) txt.length := by omega
    have hle : t + d.endD.length ≤ txt.length := by
      by_cases hend : d.endD = []
      · simp only [hend, List.length_nil, Nat.add_zero]
        omega
      · exact occursAt_add_le d.endD txt t hend htocc
    constructor
    · omega
    · omega
  · rw [if_neg hs] at h
    cases h

theorem tagFindMatch_bounds (d : Delims) (txt : Str) (pos s e : Nat)
    (h : tagFindMatch d txt pos = some (s, e)) :
    pos ≤ s ∧ s + d.startD.length + d.endD.length ≤ e ∧ e ≤ txt.length := by
  unfold tagFindMatch at h
  obtain ⟨a, ha, hfa⟩ := List.exists_of_findSome?_eq_some h
  obtain ⟨e', he', heq⟩ := Option.map_eq_some'.mp hfa
  have ha1 : a = s := congrArg Prod.fst heq
  have ha2 : e' = e := congrArg Prod.snd heq
  obtain ⟨k, hk, hkt⟩ := List.mem_range'.mp ha
  obtain ⟨hb1, hb2⟩ := tagMatchAt_bounds d txt a e' he'
  refine ⟨?_, ?_, ?_⟩ <;> omega

theorem scanLoop_spans (d : Delims) (txt : Str)
    (hd : 1 ≤ d.startD.length + d.endD.length) :
    ∀ (fuel pos : Nat) (spans : List (Nat × Nat)), scanLoop d txt fuel pos = some spans →
      (∀ sp ∈ spans, pos ≤ sp.1 ∧ sp.1 + 1 ≤ sp.2 ∧ sp.2 ≤ txt.length) ∧
      spans.Pairwise (fun a b => a.2 ≤ b.1) := by
  intro fuel
  induction fuel with
  | zero => intro pos spans h; cases h
  | succ fuel ih =>
      intro pos spans h
      rw [scanLoop] at h
      rcases hm : tagFindMatch d txt pos with _ | ⟨s, e⟩
      · rw [hm] at h
        cases h
        exact ⟨fun sp hsp => absurd hsp (List.not_mem_nil sp), List.Pairwise.nil⟩
      · rw [hm] at h
        obtain ⟨rest, hrest, hcons⟩ := Option.map_eq_some'.mp h
        subst hcons
        obtain ⟨hb1, hb2, hb3⟩ := tagFindMatch_bounds d txt pos s e hm
        obtain ⟨ihb, ihp⟩ := ih e rest hrest
        refine ⟨?_, ?_⟩
        · intro sp hsp
          rcases List.mem_cons.mp hsp with rfl | hmem
          · exact ⟨hb1, by omega, hb3⟩
          · have := ihb sp hmem
            exact ⟨by omega, this.2.1, this.2.2⟩
        · exact List.Pairwise.cons (fun b hb => (ihb b hb).1) ihp

theorem strSub_length (txt : Str) (s e : Nat) (hse : s ≤ e) (he : e ≤ txt.length) :
    (strSub txt s e).length = e - s := by
  simp only [strSub, List.length_take, List.length_drop]
  omega

theorem mkTag_ok_fields (d : Delims) (txt : Str) (sp : Nat × Nat) (t : Tag)
    (h : mkTag d txt sp = some (.ok t)) :
    t.endP = sp.2 ∧ t.start = sp.2 - (strSub txt sp.1 sp.2).length := by
  simp only [mkTag] at h
  rcases h1 : getTagName d (strSub txt sp.1 sp.2) with _ | nm <;> rw [h1] at h
  · simp at h
  · rcases h2 : getAttributes d (strSub txt sp.1 sp.2) with _ | e2 <;> rw [h2] at h
    · simp at h
    · rcases e2 with e2 | attrs
      · simp at h
      · rcases h3 : getStartTagContent d (strSub txt sp.1 sp.2) with _ | tc <;> rw [h3] at h
        · simp at h
        · simp only [Option.some.injEq, Except.ok.injEq] at h
          subst h
          exact ⟨rfl, rfl⟩

theorem mapTags_fields (d : Delims) (txt : Str) :
    ∀ (spans : List (Nat × Nat)) (ts : List Tag), mapTags d txt spans = some (.ok ts) →
      ts.length = spans.length ∧
      ∀ i, i < spans.length →
        (ts.getD i default).endP = (spans.getD i (0, 0)).2 ∧
        (ts.getD i default).start =
          (spans.getD i (0, 0)).2 -
            (strSub txt (spans.getD i (0, 0)).1 (spans.getD i (0, 0)).2).length := by
  intro spans
  induction spans with
  | nil =>
      intro ts h
      simp only [mapTags, Option.some.injEq, Except.ok.injEq] at h
      subst h
      exact ⟨rfl, by intro i hi; cases hi⟩
  | cons sp sps ih =>
      intro ts h
      rw [mapTags] at h
      rcases h1 : mkTag d txt sp with _ | e1 <;> rw [h1] at h
      · cases h
      · rcases e1 with e1 | t
        · simp at h
        · rcases h2 : mapTags d txt sps with _ | e2 <;> rw [h2] at h
          · cases h
          · rcases e2 with e2 | ts'
            · simp at h
            · simp only [Option.some.injEq, Except.ok.injEq] at h
              subst h
              obtain ⟨hlen, hfields⟩ := ih ts' h2
              obtain ⟨hf1, hf2⟩ := mkTag_ok_fields d txt sp t h1
              refine ⟨by simp [hlen], ?_⟩
              intro i hi
              cases i with
              | zero => exact ⟨hf1, hf2⟩
              | succ i => exact hfields i (by simpa using hi)

/-- Strictly increasing `start` offsets of the raw extracted records. -/
theorem parseTags_start_lt (d : Delims) (txt : Str) (ptags : List Tag)
    (hd : 1 ≤ d.startD.length + d.endD.length)
    (h : parseTags d txt = some (.ok ptags)) :
    ptags.Pairwise (fun a b => a.start < b.start) := by
  unfold parseTags at h
  rcases hsp : extractSpans d txt with _ | spans <;> rw [hsp] at h
  · cases h
  · obtain ⟨hlen, hfields⟩ := mapTags_fields d txt spans ptags h
    obtain ⟨hbounds, hpair⟩ := scanLoop_spans d txt hd (txt.length + 2) 0 spans hsp
    refine pairwise_of_getD ptags default _ ?_
    intro i j hij hj
    have hjs : j < spans.length := by omega
    have his : i < spans.length := by omega
    obtain ⟨hei, hsi⟩ := hfields i his
    obtain ⟨hej, hsj⟩ := hfields j hjs
    have hbi := hbounds (spans.getD i (0, 0)) (getD_mem_of_lt spans (0, 0) i his)
    have hbj := hbounds (spans.getD j (0, 0)) (getD_mem_of_lt spans (0, 0) j hjs)
    have hpij := getD_of_pairwise spans (0, 0) _ hpair i j hij hjs
    have hli : (strSub txt (spans.getD i (0, 0)).1 (spans.getD i (0, 0)).2).length =
        (spans.getD i (0, 0)).2 - (spans.getD i (0, 0)).1 :=
      strSub_length txt _ _ (by omega) (by omega)
    have hlj : (strSub txt (spans.getD j (0, 0)).1 (spans.getD j (0, 0)).2).length =
        (spans.getD j (0, 0)).2 - (spans.getD j (0, 0)).1 :=
      strSub_length txt _ _ (by omega) (by omega)
    rw [hsi, hsj, hli, hlj]
    omega

/-- Generic pairwise property of the overlap filter, driven by the indexed
relation of kept entries. -/
theorem filterOvGo_pairwise (tags : List Tag) (R : Tag → Tag → Prop)
    (hrel : ∀ i j, i < j → j < tags.length → keepTag tags i = true → keepTag tags j = true →
      R (tags.getD i default) (tags.getD j default)) :
    ∀ (fuel n : Nat), n + fuel ≤ tags.length → (filterOvGo tags fuel n).Pairwise R := by
  intro fuel
  induction fuel with
  | zero => intro n _; exact List.Pairwise.nil
  | succ fuel ih =>
      intro n hb
      rw [filterOvGo]
      by_cases hk : keepTag tags n
      · rw [if_pos hk]
        refine List.Pairwise.cons ?_ (ih (n + 1) (by omega))
        intro b hbmem
        obtain ⟨m, hm1, hm2, hm3, hkm⟩ := filterOvGo_subset tags fuel (n + 1) b hbmem
        subst hm3
        exact hrel n m (by omega) (by omega) hk hkm
      · rw [if_neg hk]
        exact ih (n + 1) (by omega)

/-- C8: every record of the final resolved set has `endTag = false`, and
the resolved records are strictly ordered by `start` with each record's
`start` at or beyond every earlier record's `end` — no two resolved
records overlap. -/
theorem C8_resolved_invariants (d : Delims) (txt : Str) (l : List Tag)
    (h : resolvedTags d txt = some (.ok l)) :
    (∀ t ∈ l, t.endTag = false) ∧
    l.Pairwise (fun a b => a.endP ≤ b.start) ∧
    l.Pairwise (fun a b => a.start < b.start) := by
  unfold resolvedTags at h
  rcases hp : parseTags d txt with _ | ep <;> rw [hp] at h
  · cases h
  rcases ep with e | ptags
  · simp [Except.map] at h
  have hl : l = filterOverlappingTags (fixEndTags txt ptags) := by
    simp only [Option.map_some', Except.map, Option.some.injEq, Except.ok.injEq] at h
    exact h.symm
  have hd : 1 ≤ d.startD.length + d.endD.length := by
    by_contra hle
    have hs0 : d.startD = [] := List.length_eq_zero.mp (by omega)
    have he0 : d.endD = [] := List.length_eq_zero.mp (by omega)
    have hde : d = ⟨[], []⟩ := by
      cases d
      simp_all
    rw [hde] at hp
    unfold parseTags extractSpans at hp
    rw [scanLoop_empty_delims_none txt (txt.length + 2)] at hp
    cases hp
  subst hl
  -- the fixed array and the filtered list
  have hAlen : (fixAllGo txt ptags.length ptags 0).length = ptags.length :=
    fixAllGo_length txt ptags.length ptags 0
  have hFdef : fixEndTags txt ptags =
      (fixAllGo txt ptags.length ptags 0).filter (fun t => !t.endTag) := rfl
  refine ⟨?_, ?_, ?_⟩
  · -- every resolved record has endTag = false
    intro t ht
    obtain ⟨m, hm1, _, hm3, _⟩ :=
      filterOvGo_subset (fixEndTags txt ptags) (fixEndTags txt ptags).length 0 t ht
    simp only [Nat.zero_add] at hm1
    have hmem : t ∈ fixEndTags txt ptags := by
      rw [hm3]; exact getD_mem_of_lt _ _ m hm1
    rw [hFdef] at hmem
    have := List.of_mem_filter hmem
    simpa using this
  · -- non-overlap
    refine filterOvGo_pairwise (fixEndTags txt ptags) _ ?_ _ 0 (by omega)
    intro i j hij hj _ hkj
    have hkj' := List.all_eq_true.mp hkj
    have hmem : i ∈ List.range j := List.mem_range.mpr hij
    have := hkj' i hmem
    simp only [Bool.not_eq_true', decide_eq_false_iff_not, Nat.not_lt] at this
    exact this
  · -- strictly increasing starts
    have hpt : ptags.Pairwise (fun a b => a.start < b.start) :=
      parseTags_start_lt d txt ptags hd hp
    have hA : (fixAllGo txt ptags.length ptags 0).Pairwise (fun a b => a.start < b.start) := by
      refine pairwise_of_getD _ default _ ?_
      intro i j hij hj
      rw [hAlen] at hj
      have hsi := (fixAllGo_skeleton txt ptags.length ptags 0 i (by omega)).2.2.1
      have hsj := (fixAllGo_skeleton txt ptags.length ptags 0 j hj).2.2.1
      rw [hsi, hsj]
      exact getD_of_pairwise ptags default _ hpt i j hij hj
    have hF : (fixEndTags txt ptags).Pairwise (fun a b => a.start < b.start) := by
      rw [hFdef]
      exact hA.sublist (List.filter_sublist _)
    refine filterOvGo_pairwise (fixEndTags txt ptags) _ ?_ _ 0 (by omega)
    intro i j hij hj _ _
    exact getD_of_pairwise _ default _ hF i j hij hj

/-- The resolved tag set of `[[A]]x[[B]][[A]]y[[/A]]`: the outer folded
`A` pair claims the whole span, and the nested `[[B]]`/`[[A]]` records are
filtered out. -/
def resolvedABA : List Tag :=
  [{ tagName := jstr "A", endTag := false, fullMatch := jstr "[[A]]x[[B]][[A]]y[[/A]]",
     endP := 23, start := 0, attributes := [], content := jstr "x[[B]][[A]]y",
     tagContents := jstr "A", selfClosing := false }]

/-- Witness for C8 at `[[A]]x[[B]][[A]]y[[/A]]`. -/
theorem C8_witness :
    (∀ t ∈ resolvedABA, t.endTag = false) ∧
    resolvedABA.Pairwise (fun a b => a.endP ≤ b.start) ∧
    resolvedABA.Pairwise (fun a b => a.start < b.start) :=
  C8_resolved_invariants defaultOptions (jstr "[[A]]x[[B]][[A]]y[[/A]]") resolvedABA rfl

/-! ## Attribute-object laws (for C4) -/

theorem lookupA_nil (key : Str) : lookupA [] key = none := rfl

theorem lookupA_cons_eq (p : Str × JSVal) (rest : Attrs) (k' : Str) (h : p.1 = k') :
    lookupA (p :: rest) k' = some p.2 := by
  simp [lookupA, List.find?_cons, beq_iff_eq.mpr h]

theorem lookupA_cons_ne (p : Str × JSVal) (rest : Attrs) (k' : Str) (h : p.1 ≠ k') :
    lookupA (p :: rest) k' = lookupA rest k' := by
  simp [lookupA, List.find?_cons, beq_eq_false_iff_ne.mpr h]

theorem find?_map_overwrite (a : Attrs) (k : Str) (v : JSVal) (k' : Str) :
    lookupA (a.map (fun p => if p.1 == k then (k, v) else p)) k' =
      if k' = k then (if a.any (fun p => p.1 == k) then some v else none)
      else lookupA a k' := by
  induction a with
  | nil =>
      by_cases hk'k : k' = k <;> simp [lookupA, hk'k]
  | cons p rest ih =>
      rw [List.map_cons]
      by_cases hpk : p.1 = k
      · rw [if_pos (beq_iff_eq.mpr hpk)]
        by_cases hk'k : k' = k
        · rw [lookupA_cons_eq (k, v) _ k' hk'k.symm, if_pos hk'k, List.any_cons,
            beq_iff_eq.mpr hpk, Bool.true_or, if_pos rfl]
        · rw [lookupA_cons_ne (k, v) _ k' (fun h => hk'k h.symm),
            lookupA_cons_ne p rest k' (fun h => hk'k (hpk ▸ h).symm)]
          have hih := ih
          rw [if_neg hk'k] at hih
          rw [hih, if_neg hk'k]
      · rw [if_neg (fun h => hpk (beq_iff_eq.mp h))]
        by_cases hp' : p.1 = k'
        · have hk'k : k' ≠ k := fun h => hpk (hp'.trans h)
          rw [lookupA_cons_eq p _ k' hp', if_neg hk'k, lookupA_cons_eq p rest k' hp']
        · rw [lookupA_cons_ne _ _ _ hp']
          by_cases hk'k : k' = k
          · subst hk'k
            have hih := ih
            rw [if_pos rfl] at hih
            rw [hih, if_pos rfl, List.any_cons, beq_eq_false_iff_ne.mpr hpk, Bool.false_or]
          · have hih := ih
            rw [if_neg hk'k] at hih
            rw [hih, if_neg hk'k, lookupA_cons_ne p rest k' hp']

theorem lookupA_append_single (a : Attrs) (k : Str) (v : JSVal) (k' : Str)
    (hno : a.any (fun p => p.1 == k) = false) :
    lookupA (a ++ [(k, v)]) k' = if k' = k then some v else lookupA a k' := by
  induction a with
  | nil =>
      by_cases hk'k : k' = k
      · rw [List.nil_append, lookupA_cons_eq (k, v) [] k' hk'k.symm, if_pos hk'k]
      · rw [List.nil_append, lookupA_cons_ne (k, v) [] k' (fun h => hk'k h.symm), if_neg hk'k]
  | cons p rest ih =>
      rw [List.any_cons, Bool.or_eq_false_iff] at hno
      rw [List.cons_append]
      by_cases hp' : p.1 = k'
      · have hk'k : k' ≠ k := by
          intro h
          rw [h] at hp'
          exact absurd (beq_iff_eq.mpr hp') (by rw [hno.1]; exact Bool.false_ne_true)
        rw [lookupA_cons_eq p _ k' hp', if_neg hk'k, lookupA_cons_eq p rest k' hp']
      · rw [lookupA_cons_ne p _ k' hp', ih hno.2]
        by_cases hk'k : k' = k
        · rw [if_pos hk'k, if_pos hk'k]
        · rw [if_neg hk'k, if_neg hk'k, lookupA_cons_ne p rest k' hp']

/-- The fundamental law of JS property assignment in the model. -/
theorem lookupA_setKey (a : Attrs) (k : Str) (v : JSVal) (k' : Str) :
    lookupA (setKey a k v) k' = if k' = k then some v else lookupA a k' := by
  unfold setKey
  by_cases hk : a.any (fun p => p.1 == k) = true
  · rw [if_pos hk, find?_map_overwrite, hk]
    by_cases hk'k : k' = k
    · rw [if_pos hk'k, if_pos hk'k, if_pos rfl]
    · rw [if_neg hk'k, if_neg hk'k]
  · have hk' : a.any (fun p => p.1 == k) = false := by
      rcases Bool.eq_false_or_eq_true (a.any (fun p => p.1 == k)) with hf | ht
      · exact absurd hf hk
      · exact ht
    rw [if_neg (by rw [hk']; exact Bool.false_ne_true), lookupA_append_single a k v k' hk']

theorem getElem?_some_lt {α : Type _} {l : List α} {i : Nat} {a : α}
    (h : l[i]? = some a) : i < l.length := by
  by_contra hc
  rw [List.getElem?_eq_none (by omega)] at h
  cases h

/-- Which attribute-object keys one token's loop iteration writes:
a keyed token writes its positional slot and its name, a bare token writes
only its positional slot, an empty quoted token writes nothing. -/
def tokWrites (tok : AttrTok) (pos : Nat) (key : Str) : Prop :=
  match tok with
  | .keyed k _ => key = natToStr pos ∨ key = k
  | .bare _ => key = natToStr pos
  | .skip => False

theorem buildAttrsGo_frame :
    ∀ (ts : List AttrTok) (count : Nat) (a0 a : Attrs) (key : Str),
      buildAttrsGo ts count a0 = .ok a →
      (∀ (i : Nat) (tok : AttrTok), ts[i]? = some tok → ¬ tokWrites tok (count + i) key) →
      lookupA a key = lookupA a0 key := by
  intro ts
  induction ts with
  | nil =>
      intro count a0 a key h _
      cases h
      rfl
  | cons tok ts ih =>
      intro count a0 a key h hdisj
      have h0 : ¬ tokWrites tok (count + 0) key := hdisj 0 tok List.getElem?_cons_zero
      have hdisj' : ∀ i tok', ts[i]? = some tok' →
          ¬ tokWrites tok' (count + 1 + i) key := by
        intro i tok' hi
        have := hdisj (i + 1) tok' (by rwa [List.getElem?_cons_succ])
        rwa [show count + (i + 1) = count + 1 + i by omega] at this
      cases tok with
      | keyed k v =>
          rw [buildAttrsGo] at h
          by_cases hkp : (k == natToStr count) = true
          · rw [if_pos hkp] at h
            cases h
          · rw [if_neg hkp] at h
            rw [ih (count + 1) _ a key h hdisj']
            have hnp : key ≠ natToStr count := fun he => h0 (Or.inl (by rwa [Nat.add_zero]))
            have hnk : key ≠ k := fun he => h0 (Or.inr he)
            rw [lookupA_setKey, if_neg hnp, lookupA_setKey, if_neg hnk,
              lookupA_setKey, if_neg hnp]
      | bare t =>
          rw [buildAttrsGo] at h
          rw [ih (count + 1) _ a key h hdisj']
          have hnp : key ≠ natToStr count := fun he => h0 (by rwa [Nat.add_zero])
          rw [lookupA_setKey, if_neg hnp]
      | skip =>
          rw [buildAttrsGo] at h
          exact ih (count + 1) a0 a key h hdisj'

theorem buildAttrsGo_spec :
    ∀ (ts : List AttrTok) (count : Nat) (a0 a : Attrs),
      buildAttrsGo ts count a0 = .ok a →
      (∀ (i : Nat) (k v : Str) (j : Nat), ts[i]? = some (AttrTok.keyed k v) → j < ts.length →
        k ≠ natToStr (count + j)) →
      (∀ i, i < ts.length → lookupA a0 (natToStr (count + i)) = none) →
      (∀ (i : Nat) (k v : Str), ts[i]? = some (AttrTok.keyed k v) →
          lookupA a (natToStr (count + i)) = some (.obj [(k, valOf v)]) ∧
          ((∀ (j : Nat) (k' v' : Str), i < j → ts[j]? = some (AttrTok.keyed k' v') → k' ≠ k) →
            lookupA a k = some (valOf v))) ∧
      (∀ (i : Nat) (t : Str), ts[i]? = some (AttrTok.bare t) →
        lookupA a (natToStr (count + i)) = some (.str t)) ∧
      (∀ (i : Nat), ts[i]? = some AttrTok.skip → lookupA a (natToStr (count + i)) = none) ∧
      (∀ key w, lookupA a key = some w → lookupA a0 key = some w ∨
          ∃ (i : Nat) (tok : AttrTok), ts[i]? = some tok ∧ tokWrites tok (count + i) key) := by
  intro ts
  induction ts with
  | nil =>
      intro count a0 a h _ _
      cases h
      refine ⟨?_, ?_, ?_, ?_⟩
      · intro i k v hi; cases hi
      · intro i t hi; cases hi
      · intro i hi; cases hi
      · intro key w hw; exact Or.inl hw
  | cons tok ts ih =>
      intro count a0 a h Hnum Hpos0
      have Hnum' : ∀ (i : Nat) (k v : Str) (j : Nat), ts[i]? = some (AttrTok.keyed k v) →
          j < ts.length → k ≠ natToStr (count + 1 + j) := by
        intro i k v j hi hj
        have := Hnum (i + 1) k v (j + 1) (by rwa [List.getElem?_cons_succ])
          (by simp; omega)
        rwa [show count + (j + 1) = count + 1 + j by omega] at this
      cases tok with
      | keyed k v =>
          have hkne : k ≠ natToStr count := by
            have := Hnum 0 k v 0 List.getElem?_cons_zero (by simp)
            rwa [Nat.add_zero] at this
          have hkb : (k == natToStr count) = false := beq_eq_false_iff_ne.mpr hkne
          rw [buildAttrsGo, if_neg (by rw [hkb]; exact Bool.false_ne_true)] at h
          set pos := natToStr count with hposdef
          set a1 := setKey (setKey (setKey a0 pos (.obj [])) k (valOf v)) pos
            (.obj [(k, valOf v)]) with ha1def
          have Hpos0' : ∀ i, i < ts.length → lookupA a1 (natToStr (count + 1 + i)) = none := by
            intro i hi
            have hne1 : natToStr (count + 1 + i) ≠ pos :=
              fun he => by have := natToStr_injective he; omega
            have hnek : natToStr (count + 1 + i) ≠ k := by
              intro he
              exact Hnum 0 k v (1 + i) List.getElem?_cons_zero (by simp; omega)
                (by rw [← he]; congr 1; omega)
            rw [ha1def, lookupA_setKey, if_neg hne1, lookupA_setKey, if_neg hnek,
              lookupA_setKey, if_neg hne1]
            have := Hpos0 (i + 1) (by simp; omega)
            rwa [show count + (i + 1) = count + 1 + i by omega] at this
          obtain ⟨IH1, IH2, IH3, IH4⟩ := ih (count + 1) a1 a h Hnum' Hpos0'
          -- the head's positional slot survives the rest of the fold
          have hframe_pos : lookupA a pos = lookupA a1 pos := by
            refine buildAttrsGo_frame ts (count + 1) a1 a pos h ?_
            intro i' tok' hi' hw
            cases tok' with
            | keyed k' v' =>
                rcases hw with hw | hw
                · have := natToStr_injective hw
                  omega
                · exact Hnum (i' + 1) k' v' 0 (by rwa [List.getElem?_cons_succ])
                    (by simp only [List.length_cons]; omega)
                    (by rw [Nat.add_zero, ← hw])
            | bare t' =>
                have := natToStr_injective hw
                omega
            | skip => exact hw
          have hpos_val : lookupA a1 pos = some (.obj [(k, valOf v)]) := by
            rw [ha1def, lookupA_setKey, if_pos rfl]
          refine ⟨?_, ?_, ?_, ?_⟩
          · intro i k0 v0 hi
            cases i with
            | zero =>
                rw [List.getElem?_cons_zero, Option.some.injEq] at hi
                injection hi with hik hiv
                rw [← hik, ← hiv]
                constructor
                · rw [Nat.add_zero, ← hposdef, hframe_pos, hpos_val]
                · intro hlater
                  have hframe_k : lookupA a k = lookupA a1 k := by
                    refine buildAttrsGo_frame ts (count + 1) a1 a k h ?_
                    intro i' tok' hi' hw
                    cases tok' with
                    | keyed k' v' =>
                        rcases hw with hw | hw
                        · refine Hnum 0 k v (1 + i') List.getElem?_cons_zero
                            (by have := getElem?_some_lt hi'
                                simp only [List.length_cons]; omega) ?_
                          rwa [show count + (1 + i') = count + 1 + i' by omega]
                        · exact hlater (i' + 1) k' v' (by omega)
                            (by rwa [List.getElem?_cons_succ]) hw.symm
                    | bare t' =>
                        refine Hnum 0 k v (1 + i') List.getElem?_cons_zero
                          (by have := getElem?_some_lt hi'
                              simp only [List.length_cons]; omega) ?_
                        have hw' : k = natToStr (count + 1 + i') := hw
                        rwa [show count + (1 + i') = count + 1 + i' by omega]
                    | skip => exact hw
                  rw [hframe_k, ha1def, lookupA_setKey, if_neg hkne, lookupA_setKey,
                    if_pos rfl]
            | succ i =>
                rw [List.getElem?_cons_succ] at hi
                obtain ⟨hA, hB⟩ := IH1 i k0 v0 hi
                constructor
                · rwa [show count + (i + 1) = count + 1 + i by omega]
                · intro hlater
                  refine hB ?_
                  intro j k' v' hij hj
                  exact hlater (j + 1) k' v' (by omega) (by rwa [List.getElem?_cons_succ])
          · intro i t hi
            cases i with
            | zero =>
                rw [List.getElem?_cons_zero] at hi
                simp at hi
            | succ i =>
                rw [List.getElem?_cons_succ] at hi
                have := IH2 i t hi
                rwa [show count + (i + 1) = count + 1 + i by omega]
          · intro i hi
            cases i with
            | zero =>
                rw [List.getElem?_cons_zero] at hi
                simp at hi
            | succ i =>
                rw [List.getElem?_cons_succ] at hi
                have := IH3 i hi
                rwa [show count + (i + 1) = count + 1 + i by omega]
          · intro key w hw
            rcases IH4 key w hw with h1 | ⟨i, tok', hi, hwr⟩
            · by_cases hkey_pos : key = pos
              · exact Or.inr ⟨0, .keyed k v, List.getElem?_cons_zero, Or.inl (by rw [hkey_pos, Nat.add_zero])⟩
              · by_cases hkey_k : key = k
                · exact Or.inr ⟨0, .keyed k v, List.getElem?_cons_zero, Or.inr hkey_k⟩
                · rw [ha1def, lookupA_setKey, if_neg hkey_pos, lookupA_setKey,
                    if_neg hkey_k, lookupA_setKey, if_neg hkey_pos] at h1
                  exact Or.inl h1
            · refine Or.inr ⟨i + 1, tok', by rwa [List.getElem?_cons_succ], ?_⟩
              rwa [show count + (i + 1) = count + 1 + i by omega]
      | bare t =>
          rw [buildAttrsGo] at h
          set pos := natToStr count with hposdef
          set a1 := setKey a0 pos (.str t) with ha1def
          have Hpos0' : ∀ i, i < ts.length → lookupA a1 (natToStr (count + 1 + i)) = none := by
            intro i hi
            have hne1 : natToStr (count + 1 + i) ≠ pos :=
              fun he => by have := natToStr_injective he; omega
            rw [ha1def, lookupA_setKey, if_neg hne1]
            have := Hpos0 (i + 1) (by simp; omega)
            rwa [show count + (i + 1) = count + 1 + i by omega] at this
          obtain ⟨IH1, IH2, IH3, IH4⟩ := ih (count + 1) a1 a h Hnum' Hpos0'
          have hframe_pos : lookupA a pos = lookupA a1 pos := by
            refine buildAttrsGo_frame ts (count + 1) a1 a pos h ?_
            intro i' tok' hi' hw
            cases tok' with
            | keyed k' v' =>
                rcases hw with hw | hw
                · have := natToStr_injective hw
                  omega
                · exact Hnum (i' + 1) k' v' 0 (by rwa [List.getElem?_cons_succ])
                    (by simp only [List.length_cons]; omega)
                    (by rw [Nat.add_zero, ← hw])
            | bare t' =>
                have := natToStr_injective hw
                omega
            | skip => exact hw
          refine ⟨?_, ?_, ?_, ?_⟩
          · intro i k0 v0 hi
            cases i with
            | zero =>
                rw [List.getElem?_cons_zero] at hi
                simp at hi
            | succ i =>
                rw [List.getElem?_cons_succ] at hi
                obtain ⟨hA, hB⟩ := IH1 i k0 v0 hi
                constructor
                · rwa [show count + (i + 1) = count + 1 + i by omega]
                · intro hlater
                  refine hB ?_
                  intro j k' v' hij hj
                  exact hlater (j + 1) k' v' (by omega) (by rwa [List.getElem?_cons_succ])
          · intro i t0 hi
            cases i with
            | zero =>
                rw [List.getElem?_cons_zero, Option.some.injEq] at hi
                injection hi with hit
                rw [← hit, Nat.add_zero, ← hposdef, hframe_pos, ha1def, lookupA_setKey,
                  if_pos rfl]
            | succ i =>
                rw [List.getElem?_cons_succ] at hi
                have := IH2 i t0 hi
                rwa [show count + (i + 1) = count + 1 + i by omega]
          · intro i hi
            cases i with
            | zero =>
                rw [List.getElem?_cons_zero] at hi
                simp at hi
            | succ i =>
                rw [List.getElem?_cons_succ] at hi
                have := IH3 i hi
                rwa [show count + (i + 1) = count + 1 + i by omega]
          · intro key w hw
            rcases IH4 key w hw with h1 | ⟨i, tok', hi, hwr⟩
            · by_cases hkey_pos : key = pos
              · exact Or.inr ⟨0, .bare t, List.getElem?_cons_zero, by rw [hkey_pos, Nat.add_zero]; exact hposdef⟩
              · rw [ha1def, lookupA_setKey, if_neg hkey_pos] at h1
                exact Or.inl h1
            · refine Or.inr ⟨i + 1, tok', by rwa [List.getElem?_cons_succ], ?_⟩
              rwa [show count + (i + 1) = count + 1 + i by omega]
      | skip =>
          rw [buildAttrsGo] at h
          have Hpos0' : ∀ i, i < ts.length → lookupA a0 (natToStr (count + 1 + i)) = none := by
            intro i hi
            have := Hpos0 (i + 1) (by simp; omega)
            rwa [show count + (i + 1) = count + 1 + i by omega] at this
          obtain ⟨IH1, IH2, IH3, IH4⟩ := ih (count + 1) a0 a h Hnum' Hpos0'
          refine ⟨?_, ?_, ?_, ?_⟩
          · intro i k0 v0 hi
            cases i with
            | zero =>
                rw [List.getElem?_cons_zero] at hi
                simp at hi
            | succ i =>
                rw [List.getElem?_cons_succ] at hi
                obtain ⟨hA, hB⟩ := IH1 i k0 v0 hi
                constructor
                · rwa [show count + (i + 1) = count + 1 + i by omega]
                · intro hlater
                  refine hB ?_
                  intro j k' v' hij hj
                  exact hlater (j + 1) k' v' (by omega) (by rwa [List.getElem?_cons_succ])
          · intro i t0 hi
            cases i with
            | zero =>
                rw [List.getElem?_cons_zero] at hi
                simp at hi
            | succ i =>
                rw [List.getElem?_cons_succ] at hi
                have := IH2 i t0 hi
                rwa [show count + (i + 1) = count + 1 + i by omega]
          · intro i hi
            cases i with
            | zero =>
                -- the skip token writes nothing and no later token writes its slot
                have hframe_pos : lookupA a (natToStr count) = lookupA a0 (natToStr count) := by
                  refine buildAttrsGo_frame ts (count + 1) a0 a (natToStr count) h ?_
                  intro i' tok' hi' hw
                  cases tok' with
                  | keyed k' v' =>
                      rcases hw with hw | hw
                      · have := natToStr_injective hw
                        omega
                      · exact Hnum (i' + 1) k' v' 0 (by rwa [List.getElem?_cons_succ])
                          (by simp only [List.length_cons]; omega)
                          (by rw [Nat.add_zero, ← hw])
                  | bare t' =>
                      have := natToStr_injective hw
                      omega
                  | skip => exact hw
                rw [Nat.add_zero, hframe_pos]
                have := Hpos0 0 (by simp)
                rwa [Nat.add_zero] at this
            | succ i =>
                rw [List.getElem?_cons_succ] at hi
                have := IH3 i hi
                rwa [show count + (i + 1) = count + 1 + i by omega]
          · intro key w hw
            rcases IH4 key w hw with h1 | ⟨i, tok', hi, hwr⟩
            · exact Or.inl h1
            · refine Or.inr ⟨i + 1, tok', by rwa [List.getElem?_cons_succ], ?_⟩
              rwa [show count + (i + 1) = count + 1 + i by omega]

theorem mem_of_getElem?_some {α : Type _} {l : List α} {i : Nat} {a : α}
    (h : l[i]? = some a) : a ∈ l := by
  have hb := getElem?_some_lt h
  rw [List.getElem?_eq_getElem hb] at h
  injection h with h'
  rw [← h']
  exact List.getElem_mem hb

/-- No keyed token's attribute name is the decimal numeral of any token
position (1-based); numeral-named attributes collide with the positional
slots. -/
def noNumeralKeys (ts : List AttrTok) : Bool :=
  ts.all (fun tok =>
    match tok with
    | .keyed k _ => (List.range ts.length).all (fun j => !(k == natToStr (j + 1)))
    | _ => true)

/-- C4 counterexample: positional and keyed slots live in one property
namespace, so a numeric attribute name collides with a positional slot.
For the tag `[[X 2=a b]]` the first token is the keyed `2=a` — yet in the
final attributes object the key `"2"` holds the bare token `"b"` (the
second token's positional write overwrote it), not `"a"`: the keyed token
did not (for the final object) populate its keyed slot as the claim
states. -/
theorem C4_counterexample :
    attrTokens (jstr "2=a b") = some [AttrTok.keyed (jstr "2") (jstr "a"), AttrTok.bare (jstr "b")] ∧
    (getAttributes defaultOptions (jstr "[[X 2=a b]]")).map
        (Except.map (fun a => lookupA a (jstr "2"))) = some (.ok (some (.str (jstr "b")))) ∧
    JSVal.str (jstr "b") ≠ JSVal.str (jstr "a") := by
  refine ⟨rfl, rfl, ?_⟩
  intro h
  cases h

/-- C4 amended: positional and keyed slots share the object's property
namespace.  Provided no attribute name equals the decimal numeral of a
token position, each `key=value` token populates its 1-based positional
slot with an object holding that single pair (the value being `undefined`
when a quoted value is empty), and — when no later token re-uses the key —
the keyed slot with the value; a (nonempty) bare token populates only its
positional slot with its text; an empty quoted token populates nothing
while still consuming a position; position numbering counts every token
left to right; and no key beyond the positional numerals and the keyed
names is ever populated.  In particular `[[CONTENT id=45]]` yields
`attributes.id = "45"` and `attributes[1]` deep-equal `{id: "45"}`. -/
theorem C4_amended_attribute_population (ts : List AttrTok) (a : Attrs)
    (hnum : noNumeralKeys ts = true) (hb : buildAttrs ts = .ok a) :
    (∀ (i : Nat) (k v : Str), ts[i]? = some (AttrTok.keyed k v) →
        lookupA a (natToStr (i + 1)) = some (.obj [(k, valOf v)]) ∧
        ((∀ (j : Nat) (k' v' : Str), i < j → ts[j]? = some (AttrTok.keyed k' v') → k' ≠ k) →
          lookupA a k = some (valOf v))) ∧
    (∀ (i : Nat) (t : Str), ts[i]? = some (AttrTok.bare t) →
      lookupA a (natToStr (i + 1)) = some (.str t)) ∧
    (∀ (i : Nat), ts[i]? = some AttrTok.skip → lookupA a (natToStr (i + 1)) = none) ∧
    (∀ (key : Str) (w : JSVal), lookupA a key = some w →
        (∃ i, i < ts.length ∧ key = natToStr (i + 1)) ∨
        (∃ (i : Nat) (k v : Str), ts[i]? = some (AttrTok.keyed k v) ∧ key = k)) ∧
    ((getAttributes defaultOptions (jstr "[[CONTENT id=45]]")).map
        (Except.map (fun a0 => (lookupA a0 (jstr "id"), lookupA a0 (jstr "1")))) =
      some (.ok (some (.str (jstr "45")), some (.obj [(jstr "id", .str (jstr "45"))])))) := by
  have Hnum : ∀ (i : Nat) (k v : Str) (j : Nat), ts[i]? = some (AttrTok.keyed k v) →
      j < ts.length → k ≠ natToStr (1 + j) := by
    intro i k v j hi hj he
    have hmem := mem_of_getElem?_some hi
    have hall := List.all_eq_true.mp hnum _ hmem
    have hj' := List.all_eq_true.mp hall j (List.mem_range.mpr hj)
    rw [Bool.not_eq_true'] at hj'
    rw [Nat.add_comm 1 j] at he
    simp [he] at hj'
  have Hpos0 : ∀ (i : Nat), i < ts.length → lookupA ([] : Attrs) (natToStr (1 + i)) = none :=
    fun _ _ => rfl
  obtain ⟨L1, L2, L3, L4⟩ := buildAttrsGo_spec ts 1 [] a hb Hnum Hpos0
  refine ⟨?_, ?_, ?_, ?_, rfl⟩
  · intro i k v hi
    obtain ⟨hA, hB⟩ := L1 i k v hi
    exact ⟨by rwa [Nat.add_comm 1 i] at hA, hB⟩
  · intro i t hi
    have := L2 i t hi
    rwa [Nat.add_comm 1 i] at this
  · intro i hi
    have := L3 i hi
    rwa [Nat.add_comm 1 i] at this
  · intro key w hw
    rcases L4 key w hw with h0 | ⟨i, tok, hi, hwr⟩
    · cases h0
    · have hilen := getElem?_some_lt hi
      cases tok with
      | keyed k v =>
          rcases hwr with hwr | hwr
          · exact Or.inl ⟨i, hilen, by rwa [Nat.add_comm 1 i] at hwr⟩
          · exact Or.inr ⟨i, k, v, hi, hwr⟩
      | bare t => exact Or.inl ⟨i, hilen, by rwa [Nat.add_comm 1 i] at hwr⟩
      | skip => cases hwr

/-- Witness for C4 amended at the token list of `id=45 x ''`:
keyed, bare and empty-quoted tokens at positions 1, 2 and 3. -/
theorem C4_witness :
    lookupA [(jstr "1", JSVal.obj [(jstr "id", .str (jstr "45"))]),
        (jstr "id", JSVal.str (jstr "45")), (jstr "2", JSVal.str (jstr "x"))]
      (natToStr 1) = some (.obj [(jstr "id", valOf (jstr "45"))]) ∧
    lookupA [(jstr "1", JSVal.obj [(jstr "id", .str (jstr "45"))]),
        (jstr "id", JSVal.str (jstr "45")), (jstr "2", JSVal.str (jstr "x"))]
      (jstr "id") = some (valOf (jstr "45")) ∧
    lookupA [(jstr "1", JSVal.obj [(jstr "id", .str (jstr "45"))]),
        (jstr "id", JSVal.str (jstr "45")), (jstr "2", JSVal.str (jstr "x"))]
      (natToStr 2) = some (.str (jstr "x")) ∧
    lookupA [(jstr "1", JSVal.obj [(jstr "id", .str (jstr "45"))]),
        (jstr "id", JSVal.str (jstr "45")), (jstr "2", JSVal.str (jstr "x"))]
      (natToStr 3) = none := by
  have hspec := C4_amended_attribute_population
    [AttrTok.keyed (jstr "id") (jstr "45"), AttrTok.bare (jstr "x"), AttrTok.skip]
    [(jstr "1", JSVal.obj [(jstr "id", .str (jstr "45"))]),
     (jstr "id", JSVal.str (jstr "45")), (jstr "2", JSVal.str (jstr "x"))]
    rfl rfl
  refine ⟨(hspec.1 0 (jstr "id") (jstr "45") rfl).1,
    (hspec.1 0 (jstr "id") (jstr "45") rfl).2 ?_,
    hspec.2.1 1 (jstr "x") rfl,
    hspec.2.2.1 2 rfl⟩
  intro j k' v' hj hjt
  match j, hjt with
  | 1, h => cases h
  | 2, h => cases h

end Shortcode
